import Mathlib

/-! Event-driven property-tree builder and verifying JSON writer.

A shallow embedding of `src/testjson.cpp`:

* `standard_callbacks` (lines 39-203): the stack machine that turns parser
  events into a property tree;
* `details::verify_json`, `details::create_escapes`,
  `details::write_json_helper` and `details::write_json` (lines 217-382).

Conventions of the embedding.

* A code unit is the natural number obtained by converting it to the unsigned
  type `UCh` (line 254); a string is a list of code units.
* A property tree is a scalar payload together with the ordered list of its
  `(key, child)` pairs.
* A `Ptree *` held by a stack frame is the list of child indices leading from
  the root to the node.  Children are only ever appended, so an index keeps
  designating the same child.
* `std::vector<layer>` is a list whose head is `stack.back()`.
* Operations whose C++ behaviour is undefined or aborts (`stack.back()` or
  `pop_back()` on an empty vector, `BOOST_ASSERT(false)`, a dangling frame
  pointer) return `none`.
* An output stream is the list of code units written to it.
-/

namespace Testjson

/-- Strings are lists of code units, each unit given by its unsigned value. -/
abbrev Str := List Nat

/-- Code unit of a character literal, as in `Ch('x')`. -/
abbrev Ch (c : Char) : Nat := c.toNat

/-- Code units of a string literal. -/
def str (s : String) : Str := s.toList.map Char.toNat

/-- The quote character `Ch('"')`. -/
abbrev quote : Nat := 0x22

/-- The backslash character. -/
abbrev backslash : Nat := 0x5C

/-! ## The tree value -/

/-- A `boost::property_tree::ptree` with string keys and string data: the
scalar payload and the ordered `(key, child)` pairs. -/
inductive Ptree where
  | mk (data : Str) (children : List (Str × Ptree))
deriving Repr

namespace Ptree

/-- The scalar payload, `pt.data()` / `pt.get_value<Str>()`. -/
def data : Ptree → Str
  | mk d _ => d

/-- The ordered children of a node. -/
def children : Ptree → List (Str × Ptree)
  | mk _ cs => cs

/-- A default-constructed tree, `Ptree()`. -/
def empty : Ptree := mk [] []

/-- Dereference a node pointer: the node reached from `t` along `p`. -/
def get? : Ptree → List Nat → Option Ptree
  | t, [] => some t
  | mk _ cs, i :: p =>
    match cs[i]? with
    | none => none
    | some (_, c) => get? c p

/-- Mutate the node a pointer designates; `none` when the pointer dangles. -/
def modify (f : Ptree → Ptree) : Ptree → List Nat → Option Ptree
  | t, [] => some (f t)
  | mk d cs, i :: p =>
    match cs[i]? with
    | none => none
    | some (k, c) =>
      match modify f c p with
      | none => none
      | some c' => some (mk d (cs.set i (k, c')))

/-- The effect of `t.push_back(std::make_pair(k, c))`. -/
def push_back (k : Str) (c : Ptree) : Ptree → Ptree
  | mk d cs => mk d (cs ++ [(k, c)])

/-- Apply a string operation to the payload of a node. -/
def map_data (f : Str → Str) : Ptree → Ptree
  | mk d cs => mk (f d) cs

end Ptree

/-! ## The builder: `standard_callbacks` -/

/-- The frame kinds (`enum kind`, lines 137-143). -/
inductive kind where
  | array | object | key | leaf
deriving DecidableEq, Repr

/-- Pointers into the tree: child indices from the root. -/
abbrev Path := List Nat

/-- One stack frame (`struct layer`, lines 144-148). -/
structure layer where
  k : kind
  t : Path
deriving DecidableEq, Repr

/-- The builder state: the private members `root`, `key_buffer`, `stack`
(lines 135-149).  The head of `stack` is `stack.back()`. -/
structure standard_callbacks where
  root : Ptree
  key_buffer : Str
  stack : List layer
deriving Repr

/-- A `string &` returned by `new_value` / `current_value`: either the
pending-key buffer or the payload of a node. -/
inductive Ref where
  | key_buffer
  | data (t : Path)
deriving DecidableEq, Repr

namespace standard_callbacks

/-- A freshly constructed builder. -/
def fresh : standard_callbacks := ⟨Ptree.empty, [], []⟩

/-- Accessor `output()` (line 115). -/
def output (cb : standard_callbacks) : Ptree := cb.root

/-- The body of `new_tree` (lines 151-184), by recursion on the stack (the
`leaf` case pops and calls itself).  Returns the new state and the node
returned by reference.  The `object`/`default` case is `BOOST_ASSERT(false)`. -/
def new_tree_aux (root : Ptree) (key_buffer : Str) :
    List layer → Option (standard_callbacks × Path)
  | [] => some (⟨root, key_buffer, [⟨kind.leaf, []⟩]⟩, [])
  | l :: rest =>
    match l.k with
    | kind.array =>
      match root.get? l.t, root.modify (Ptree.push_back [] Ptree.empty) l.t with
      | some n, some root' =>
        let nl : layer := ⟨kind.leaf, l.t ++ [n.children.length]⟩
        some (⟨root', key_buffer, nl :: l :: rest⟩, nl.t)
      | _, _ => none
    | kind.object => none
    | kind.key =>
      match root.get? l.t, root.modify (Ptree.push_back key_buffer Ptree.empty) l.t with
      | some n, some root' =>
        let nl : layer := ⟨kind.leaf, l.t ++ [n.children.length]⟩
        some (⟨root', key_buffer, nl :: ⟨kind.object, l.t⟩ :: rest⟩, nl.t)
      | _, _ => none
    | kind.leaf => new_tree_aux root key_buffer rest

/-- Method `new_tree()` (lines 151-184). -/
def new_tree (cb : standard_callbacks) : Option (standard_callbacks × Path) :=
  new_tree_aux cb.root cb.key_buffer cb.stack

/-- The body of `new_value` (lines 185-202), by recursion on the stack. -/
def new_value_aux (root : Ptree) (key_buffer : Str) :
    List layer → Option (standard_callbacks × Ref)
  | [] =>
    match new_tree_aux root key_buffer [] with
    | some (cb, t) => some (cb, Ref.data t)
    | none => none
  | l :: rest =>
    match l.k with
    | kind.leaf => new_value_aux root key_buffer rest
    | kind.object => some (⟨root, [], ⟨kind.key, l.t⟩ :: rest⟩, Ref.key_buffer)
    | _ =>
      match new_tree_aux root key_buffer (l :: rest) with
      | some (cb, t) => some (cb, Ref.data t)
      | none => none

/-- Method `new_value()` (lines 185-202). -/
def new_value (cb : standard_callbacks) : Option (standard_callbacks × Ref) :=
  new_value_aux cb.root cb.key_buffer cb.stack

/-- Method `current_value()` (lines 122-132). -/
def current_value (cb : standard_callbacks) : Option Ref :=
  match cb.stack with
  | [] => none
  | l :: _ =>
    match l.k with
    | kind.key => some Ref.key_buffer
    | _ => some (Ref.data l.t)

/-- Apply a string operation through a `string &`. -/
def update (cb : standard_callbacks) (r : Ref) (f : Str → Str) :
    Option standard_callbacks :=
  match r with
  | Ref.key_buffer => some { cb with key_buffer := f cb.key_buffer }
  | Ref.data t =>
    match cb.root.modify (Ptree.map_data f) t with
    | some root' => some { cb with root := root' }
    | none => none

/-- The statement `stack.back().k = k`. -/
def set_back_kind (cb : standard_callbacks) (k : kind) : Option standard_callbacks :=
  match cb.stack with
  | [] => none
  | l :: rest => some { cb with stack := ⟨k, l.t⟩ :: rest }

/-- The statement `stack.pop_back()`. -/
def pop_back (cb : standard_callbacks) : Option standard_callbacks :=
  match cb.stack with
  | [] => none
  | _ :: rest => some { cb with stack := rest }

/-- Event `on_null` (lines 46-49). -/
def on_null (cb : standard_callbacks) : Option standard_callbacks :=
  match cb.new_value with
  | some (cb1, r) => cb1.update r (fun _ => str "null")
  | none => none

/-- Event `on_boolean` (lines 51-55). -/
def on_boolean (cb : standard_callbacks) (b : Bool) : Option standard_callbacks :=
  match cb.new_value with
  | some (cb1, r) => cb1.update r (fun _ => if b then str "true" else str "false")
  | none => none

/-- Event `on_number` (lines 57-61). -/
def on_number (cb : standard_callbacks) (code_units : Str) : Option standard_callbacks :=
  match cb.new_value with
  | some (cb1, r) => cb1.update r (fun _ => code_units)
  | none => none

/-- Event `on_begin_number` (lines 62-65). -/
def on_begin_number (cb : standard_callbacks) : Option standard_callbacks :=
  match cb.new_value with
  | some (cb1, _) => some cb1
  | none => none

/-- Event `on_digit` (lines 66-69). -/
def on_digit (cb : standard_callbacks) (d : Nat) : Option standard_callbacks :=
  match cb.current_value with
  | some r => cb.update r (fun s => s ++ [d])
  | none => none

/-- Event `on_end_number` (line 70). -/
def on_end_number (cb : standard_callbacks) : Option standard_callbacks := some cb

/-- Event `on_begin_string` (lines 72-76). -/
def on_begin_string (cb : standard_callbacks) : Option standard_callbacks :=
  match cb.new_value with
  | some (cb1, _) =>
    match cb1.current_value with
    | some r => cb1.update r (fun s => s ++ [quote])
    | none => none
  | none => none

/-- Event `on_code_units` (lines 77-81). -/
def on_code_units (cb : standard_callbacks) (code_units : Str) : Option standard_callbacks :=
  match cb.current_value with
  | some r => cb.update r (fun s => s ++ code_units)
  | none => none

/-- Event `on_code_unit` (lines 82-85). -/
def on_code_unit (cb : standard_callbacks) (c : Nat) : Option standard_callbacks :=
  match cb.current_value with
  | some r => cb.update r (fun s => s ++ [c])
  | none => none

/-- Event `on_end_string` (lines 86-89). -/
def on_end_string (cb : standard_callbacks) : Option standard_callbacks :=
  match cb.current_value with
  | some r => cb.update r (fun s => s ++ [quote])
  | none => none

/-- Event `on_begin_array` (lines 91-95). -/
def on_begin_array (cb : standard_callbacks) : Option standard_callbacks :=
  match cb.new_tree with
  | some (cb1, _) => cb1.set_back_kind kind.array
  | none => none

/-- The common body of `on_end_array` and `on_end_object` (lines 96-101 and
108-113): drop a `leaf` frame if there is one, then pop. -/
def on_end (cb : standard_callbacks) : Option standard_callbacks :=
  match cb.stack with
  | [] => none
  | l :: _ =>
    if l.k = kind.leaf then
      match cb.pop_back with
      | some cb1 => cb1.pop_back
      | none => none
    else cb.pop_back

/-- Event `on_end_array` (lines 96-101). -/
def on_end_array (cb : standard_callbacks) : Option standard_callbacks := cb.on_end

/-- Event `on_begin_object` (lines 103-107). -/
def on_begin_object (cb : standard_callbacks) : Option standard_callbacks :=
  match cb.new_tree with
  | some (cb1, _) => cb1.set_back_kind kind.object
  | none => none

/-- Event `on_end_object` (lines 108-113). -/
def on_end_object (cb : standard_callbacks) : Option standard_callbacks := cb.on_end

end standard_callbacks

/-- The events a parser delivers: one constructor per public callback. -/
inductive Event where
  | on_null
  | on_boolean (b : Bool)
  | on_number (code_units : Str)
  | on_begin_number
  | on_digit (d : Nat)
  | on_end_number
  | on_begin_string
  | on_code_units (code_units : Str)
  | on_code_unit (c : Nat)
  | on_end_string
  | on_begin_array
  | on_end_array
  | on_begin_object
  | on_end_object
deriving DecidableEq, Repr

/-- Deliver one event to the builder. -/
def step (cb : standard_callbacks) : Event → Option standard_callbacks
  | Event.on_null => cb.on_null
  | Event.on_boolean b => cb.on_boolean b
  | Event.on_number u => cb.on_number u
  | Event.on_begin_number => cb.on_begin_number
  | Event.on_digit d => cb.on_digit d
  | Event.on_end_number => cb.on_end_number
  | Event.on_begin_string => cb.on_begin_string
  | Event.on_code_units u => cb.on_code_units u
  | Event.on_code_unit c => cb.on_code_unit c
  | Event.on_end_string => cb.on_end_string
  | Event.on_begin_array => cb.on_begin_array
  | Event.on_end_array => cb.on_end_array
  | Event.on_begin_object => cb.on_begin_object
  | Event.on_end_object => cb.on_end_object

/-- Deliver a sequence of events, in order. -/
def run : List Event → standard_callbacks → Option standard_callbacks
  | [], cb => some cb
  | e :: es, cb =>
    match step cb e with
    | some cb1 => run es cb1
    | none => none

/-- The tree built from an event sequence by a fresh builder. -/
def build (es : List Event) : Option Ptree :=
  match run es standard_callbacks.fresh with
  | some cb => some cb.output
  | none => none

/-! ## The verifier and the writer: namespace `details` -/

namespace details

mutual
/-- Function `verify_json` (lines 219-242). -/
def verify_json : Ptree → Nat → Bool
  | Ptree.mk data cs, depth =>
    if depth == 0 && !data.isEmpty then false
    else if !data.isEmpty && !cs.isEmpty then false
    else verify_json_children cs depth
termination_by structural t => t
/-- The loop over the children in `verify_json` (lines 235-238). -/
def verify_json_children : List (Str × Ptree) → Nat → Bool
  | [], _ => true
  | (_, c) :: rest, depth =>
    if !verify_json c (depth + 1) then false
    else verify_json_children rest depth
termination_by structural cs => cs
end

/-- The string literal `hexdigits` (line 283). -/
def hexdigits : Str := str "0123456789ABCDEF"

/-- The body of the `while` loop of `create_escapes` (lines 253-300) for the
unit `c`; `interior` is the value of `b != beg && std::next(b) != e`. -/
def escape_unit (c : Nat) (interior : Bool) : Str :=
  if c = 0x20 ∨ c = 0x21 ∨ (0x23 ≤ c ∧ c ≤ 0x2E) ∨
      (0x30 ≤ c ∧ c ≤ 0x5B) ∨ (0x5D ≤ c ∧ c ≤ 0xFF) then [c]
  else if c = Ch '\x08' then [backslash, Ch 'b']
  else if c = Ch '\x0c' then [backslash, Ch 'f']
  else if c = Ch '\n' then [backslash, Ch 'n']
  else if c = Ch '\r' then [backslash, Ch 'r']
  else if c = Ch '\t' then [backslash, Ch 't']
  else if c = Ch '/' then [backslash, Ch '/']
  else if c = quote ∧ interior then [backslash, quote]
  else if c = quote then [quote]
  else if c = backslash then [backslash, backslash]
  else
    let u := min c 0xFFFF
    let d1 := u / 4096
    let u := u - d1 * 4096
    let d2 := u / 256
    let u := u - d2 * 256
    let d3 := u / 16
    let u := u - d3 * 16
    let d4 := u
    [backslash, Ch 'u', hexdigits.getD d1 0, hexdigits.getD d2 0,
      hexdigits.getD d3 0, hexdigits.getD d4 0]

/-- The `while` loop of `create_escapes` (lines 251-302): `at_beg` is
`b == beg`, the list is the range from `b` to `e`. -/
def create_escapes_loop : Bool → Str → Str
  | _, [] => []
  | at_beg, c :: rest =>
    escape_unit c (!at_beg && !rest.isEmpty) ++ create_escapes_loop false rest

/-- Function `create_escapes` (lines 244-304). -/
def create_escapes (s : Str) : Str := create_escapes_loop true s

/-- The string `Str(n, Ch(' '))`. -/
def spaces (n : Nat) : Str := List.replicate n (Ch ' ')

mutual
/-- Function `write_json_helper` (lines 306-369); the result is the text
written to the stream. -/
def write_json_helper : Ptree → Nat → Bool → Str
  | Ptree.mk data cs, indent, pretty =>
    if indent > 0 && cs.isEmpty then
      create_escapes data
    else if indent > 0 && cs.countP (fun p => p.1 == []) == cs.length then
      [Ch '['] ++ (if pretty then [Ch '\n'] else [])
        ++ write_array_items cs indent pretty
        ++ (if pretty then spaces (4 * indent) else []) ++ [Ch ']']
    else
      [Ch '\x7b'] ++ (if pretty then [Ch '\n'] else []) -- the opening brace
        ++ write_object_items cs indent pretty
        ++ (if pretty then spaces (4 * indent) else []) ++ [Ch '\x7d'] -- the closing brace
termination_by structural t => t
/-- The loop of the array branch (lines 329-339). -/
def write_array_items : List (Str × Ptree) → Nat → Bool → Str
  | [], _, _ => []
  | (_, c) :: rest, indent, pretty =>
    (if pretty then spaces (4 * (indent + 1)) else [])
      ++ write_json_helper c (indent + 1) pretty
      ++ (if !rest.isEmpty then [Ch ','] else [])
      ++ (if pretty then [Ch '\n'] else [])
      ++ write_array_items rest indent pretty
termination_by structural cs => cs
/-- The loop of the object branch (lines 350-364). -/
def write_object_items : List (Str × Ptree) → Nat → Bool → Str
  | [], _, _ => []
  | (k, c) :: rest, indent, pretty =>
    (if pretty then spaces (4 * (indent + 1)) else [])
      ++ create_escapes k ++ [Ch ':']
      ++ (if pretty then [Ch ' '] else [])
      ++ write_json_helper c (indent + 1) pretty
      ++ (if !rest.isEmpty then [Ch ','] else [])
      ++ (if pretty then [Ch '\n'] else [])
      ++ write_object_items rest indent pretty
termination_by structural cs => cs
end

/-- Function `write_json` (lines 371-382): the text written to `out`. -/
def write_json (pt : Ptree) : Str :=
  if !verify_json pt 0 then []
  else write_json_helper pt 0 true ++ [Ch '\n']

end details

/-! ## Specification-side notions -/

/-- A node carrying both a non-empty scalar payload and at least one child. -/
def Ptree.mixed : Ptree → Bool
  | Ptree.mk d cs => !d.isEmpty && !cs.isEmpty

/-- No node of the tree, at any depth (the root included), is mixed. -/
def NoMixed (t : Ptree) : Prop := ∀ p n, t.get? p = some n → n.mixed = false

/-- Replace the node designated by `p` with `n` (a dangling `p` changes
nothing).  Used to describe the effect of writes through frame pointers. -/
def Ptree.put (n : Ptree) : Ptree → Path → Ptree
  | _, [] => n
  | Ptree.mk d cs, i :: p =>
    match cs[i]? with
    | none => Ptree.mk d cs
    | some (k, c) => Ptree.mk d (cs.set i (k, Ptree.put n c p))

/-- One piece of a string production between `on_begin_string` and
`on_end_string`: a single `on_code_unit` or a bulk `on_code_units`. -/
inductive Chunk where
  | unit (c : Nat)
  | units (code_units : Str)
deriving DecidableEq, Repr

/-- The code units a chunk contributes. -/
def Chunk.text : Chunk → Str
  | Chunk.unit c => [c]
  | Chunk.units u => u

/-- The event delivering a chunk. -/
def Chunk.event : Chunk → Event
  | Chunk.unit c => Event.on_code_unit c
  | Chunk.units u => Event.on_code_units u

/-- The text of a string delivered as a list of chunks. -/
def chunks_text : List Chunk → Str
  | [] => []
  | c :: cs => c.text ++ chunks_text cs

/-- A JSON value together with the way the parser delivers its scalars: a
number is delivered in bulk (`on_number`) or digit by digit, a string (or an
object key) as `on_begin_string`, any sequence of chunks, `on_end_string`. -/
inductive Value where
  | null
  | boolean (b : Bool)
  | number (text : Str) (bulk : Bool)
  | string (chunks : List Chunk)
  | array (elems : List Value)
  | object (members : List (List Chunk × Value))

/-- Whether the value is an array or an object. -/
def Value.is_container : Value → Bool
  | Value.array _ => true
  | Value.object _ => true
  | _ => false

/-- The events of a number with digit text `t`. -/
def number_events (t : Str) (bulk : Bool) : List Event :=
  if bulk then [Event.on_number t]
  else Event.on_begin_number :: (t.map Event.on_digit ++ [Event.on_end_number])

/-- The events of a string (or key) delivered as the chunks `cs`. -/
def string_events (cs : List Chunk) : List Event :=
  Event.on_begin_string :: (cs.map Chunk.event ++ [Event.on_end_string])

mutual
/-- The well-formed event sequence of a value. -/
def events : Value → List Event
  | Value.null => [Event.on_null]
  | Value.boolean b => [Event.on_boolean b]
  | Value.number t bulk => number_events t bulk
  | Value.string cs => string_events cs
  | Value.array es => Event.on_begin_array :: (events_elems es ++ [Event.on_end_array])
  | Value.object ms => Event.on_begin_object :: (events_members ms ++ [Event.on_end_object])
termination_by structural v => v
/-- The events of the elements of an array, in order. -/
def events_elems : List Value → List Event
  | [] => []
  | v :: vs => events v ++ events_elems vs
termination_by structural vs => vs
/-- The events of the members of an object, in order: key string, value. -/
def events_members : List (List Chunk × Value) → List Event
  | [] => []
  | (k, v) :: ms => string_events k ++ (events v ++ events_members ms)
termination_by structural ms => ms
end

/-- The text stored for a string with content `s`: `s` between two quotes. -/
def quoted (s : Str) : Str := quote :: (s ++ [quote])

mutual
/-- The reference tree of a value. -/
def tree : Value → Ptree
  | Value.null => Ptree.mk (str "null") []
  | Value.boolean b => Ptree.mk (if b then str "true" else str "false") []
  | Value.number t _ => Ptree.mk t []
  | Value.string cs => Ptree.mk (quoted (chunks_text cs)) []
  | Value.array es => Ptree.mk [] (tree_elems es)
  | Value.object ms => Ptree.mk [] (tree_members ms)
termination_by structural v => v
/-- The children of the reference tree of an array: the element trees in
order, each under the empty key. -/
def tree_elems : List Value → List (Str × Ptree)
  | [] => []
  | v :: vs => ([], tree v) :: tree_elems vs
termination_by structural vs => vs
/-- The children of the reference tree of an object: the value trees in
order (duplicates kept), each under its captured key text. -/
def tree_members : List (List Chunk × Value) → List (Str × Ptree)
  | [] => []
  | (k, v) :: ms => (quoted (chunks_text k), tree v) :: tree_members ms
termination_by structural ms => ms
end

/-! ## Notions used to state the claims on the writer -/

namespace details

/-- The text the loop of `create_escapes` appends in its iteration for
position `i` of `s`: the loop body at the unit `s[i]`, with the test
`b != beg && std::next(b) != e` evaluated at that position. -/
def emitted (s : Str) (i : Nat) : Str :=
  escape_unit (s.getD i 0) (i != 0 && i + 1 != s.length)

/-- The uppercase hexadecimal digit of a value below 16. -/
def upper_hex (d : Nat) : Nat :=
  if d < 10 then Ch '0' + d else Ch 'A' + (d - 10)

/-- The four uppercase hexadecimal digits of `u`, most significant first,
zero padded. -/
def hex4 (u : Nat) : Str :=
  [upper_hex (u / 4096 % 16), upper_hex (u / 256 % 16), upper_hex (u / 16 % 16),
    upper_hex (u % 16)]

/-- The text of an array with children `cs` at nesting level `indent`: an
opening bracket, the recursively printed children in stored order separated
by commas, and a closing bracket; in pretty mode a newline follows the
opening bracket, every child stands on a line of its own indented by four
spaces per level, and the closing bracket stands on its own line. -/
def array_text (cs : List (Str × Ptree)) (indent : Nat) (pretty : Bool) : Str :=
  [Ch '['] ++ (if pretty then [Ch '\n'] else [])
    ++ List.intercalate (if pretty then [Ch ',', Ch '\n'] else [Ch ','])
        (cs.map (fun kc => (if pretty then spaces (4 * (indent + 1)) else [])
          ++ write_json_helper kc.2 (indent + 1) pretty))
    ++ (if pretty then Ch '\n' :: spaces (4 * indent) else []) ++ [Ch ']']

end details

/-- Scenario A: the document `{"a":1,"b":[true,false,null]}`, keys delivered
as `on_begin_string`, code unit, `on_end_string`. -/
def scenario_A : Value :=
  Value.object
    [([Chunk.unit (Ch 'a')], Value.number [Ch '1'] true),
     ([Chunk.unit (Ch 'b')],
       Value.array [Value.boolean true, Value.boolean false, Value.null])]

/-! ## JSON text of a document -/

/-- The characters of a JSON number: digits, signs, the decimal point and
the exponent letters. -/
def number_char (c : Nat) : Bool :=
  (Ch '0' ≤ c && c ≤ Ch '9') || c == Ch '+' || c == Ch '-' || c == Ch '.' ||
    c == Ch 'e' || c == Ch 'E'

/-- The JSON escape of one unit of string content: the two-character escapes
of quote, backslash, slash, backspace, form-feed, newline, carriage-return
and tab; the unit itself from space to 0xFF; otherwise backslash, `u` and
four uppercase hexadecimal digits. -/
def json_escape (c : Nat) : Str :=
  if c = quote then [backslash, quote]
  else if c = backslash then [backslash, backslash]
  else if c = Ch '/' then [backslash, Ch '/']
  else if c = Ch '\x08' then [backslash, Ch 'b']
  else if c = Ch '\x0c' then [backslash, Ch 'f']
  else if c = Ch '\n' then [backslash, Ch 'n']
  else if c = Ch '\r' then [backslash, Ch 'r']
  else if c = Ch '\t' then [backslash, Ch 't']
  else if 0x20 ≤ c ∧ c ≤ 0xFF then [c]
  else backslash :: Ch 'u' :: details.hex4 (min c 0xFFFF)

/-- The escaped content of a JSON string literal. -/
def json_content : Str → Str
  | [] => []
  | c :: s => json_escape c ++ json_content s

/-- A JSON string literal: the escaped content between two quotes. -/
def json_string (s : Str) : Str := quote :: (json_content s ++ [quote])

mutual
/-- The pretty-printed JSON text of a value at nesting level `n`: four
spaces per level, one line per element or member, a comma after each but the
last, object members as `key: value` with the key a JSON string literal. -/
def json_text : Value → Nat → Str
  | Value.null, _ => str "null"
  | Value.boolean b, _ => if b then str "true" else str "false"
  | Value.number t _, _ => t
  | Value.string cs, _ => json_string (chunks_text cs)
  | Value.array es, n =>
    [Ch '[', Ch '\n'] ++ json_elems es (n + 1) ++ details.spaces (4 * n) ++ [Ch ']']
  | Value.object ms, n =>
    [Ch '\x7b', Ch '\n'] ++ json_members ms (n + 1) ++ details.spaces (4 * n) ++ [Ch '\x7d']
termination_by structural v => v
/-- The lines of the elements of an array printed at level `n`. -/
def json_elems : List Value → Nat → Str
  | [], _ => []
  | v :: vs, n =>
    details.spaces (4 * n) ++ json_text v n ++ (if vs.isEmpty then [] else [Ch ','])
      ++ [Ch '\n'] ++ json_elems vs n
termination_by structural vs => vs
/-- The lines of the members of an object printed at level `n`. -/
def json_members : List (List Chunk × Value) → Nat → Str
  | [], _ => []
  | (k, v) :: ms, n =>
    details.spaces (4 * n) ++ json_string (chunks_text k) ++ [Ch ':', Ch ' ']
      ++ json_text v n ++ (if ms.isEmpty then [] else [Ch ','])
      ++ [Ch '\n'] ++ json_members ms n
termination_by structural ms => ms
end

mutual
/-- A value that may occur below the top level of a printable document: its
arrays and objects are non-empty and its number texts are non-empty runs of
number characters. -/
def Value.nested_ok : Value → Bool
  | Value.null => true
  | Value.boolean _ => true
  | Value.number t _ => !t.isEmpty && t.all number_char
  | Value.string _ => true
  | Value.array es => !es.isEmpty && elems_ok es
  | Value.object ms => !ms.isEmpty && members_ok ms
termination_by structural v => v
/-- All elements may occur below the top level. -/
def elems_ok : List Value → Bool
  | [] => true
  | v :: vs => v.nested_ok && elems_ok vs
termination_by structural vs => vs
/-- All member values may occur below the top level. -/
def members_ok : List (List Chunk × Value) → Bool
  | [] => true
  | (_, v) :: ms => v.nested_ok && members_ok ms
termination_by structural ms => ms
end

/-- A printable document: the top-level value is an object and every value
below it is `nested_ok`. -/
def Value.printable : Value → Bool
  | Value.object ms => members_ok ms
  | _ => false

/-- The document `{"n":007,"s":"a/b","l":[null]}`. -/
def scenario_round_trip : Value :=
  Value.object
    [([Chunk.unit (Ch 'n')], Value.number (str "007") false),
     ([Chunk.unit (Ch 's')], Value.string [Chunk.units (str "a/b")]),
     ([Chunk.unit (Ch 'l')], Value.array [Value.null])]

/-! ## Notions used to follow a run of the builder -/

/-- The property `Q` holds before the first event and after every event of
`es` delivered from `cb`, and every event is accepted. -/
def Always (Q : standard_callbacks → Prop) : List Event → standard_callbacks → Prop
  | [], cb => Q cb
  | e :: es, cb => Q cb ∧ ∃ cb1, step cb e = some cb1 ∧ Always Q es cb1

/-- Delivering `es` from `cb` ends in `cb'`, with `Q` holding all along. -/
def Runs (Q : standard_callbacks → Prop) (es : List Event)
    (cb cb' : standard_callbacks) : Prop :=
  run es cb = some cb' ∧ Always Q es cb

/-- The tree under construction has no mixed node. -/
def Good (cb : standard_callbacks) : Prop := NoMixed cb.root

/-- The stack is `fr :: base`, possibly below one finished `leaf` frame. -/
def TopIs (stack : List layer) (fr : layer) (base : List layer) : Prop :=
  stack = fr :: base ∨ ∃ q, stack = ⟨kind.leaf, q⟩ :: fr :: base

/-- The key under which a value arriving at a frame of kind `fk` is stored. -/
def slot_key (fk : kind) (key_buffer : Str) : Str :=
  if fk = kind.key then key_buffer else []

/-- The kind a frame of kind `fk` has once a value has been started in it. -/
def slot_kind (fk : kind) : kind :=
  if fk = kind.key then kind.object else fk

/-- The text an event appends to the string designated by `current_value`,
for the events that do nothing else. -/
def Event.appended : Event → Option Str
  | Event.on_digit d => some [d]
  | Event.on_code_unit c => some [c]
  | Event.on_code_units u => some u
  | Event.on_end_string => some [quote]
  | _ => none

/-- The text appended by a sequence of events. -/
def appended_text : List Event → Str
  | [] => []
  | e :: es => (e.appended.getD []) ++ appended_text es

/-- Slot resolution from `cb` (`new_tree` as well as `new_value`) ends in
`cb1`, with a new `leaf` frame over the empty node `q` on top of `base`. -/
structure Resolved (cb cb1 : standard_callbacks) (q : Path) (base : List layer) : Prop where
  tree : cb.new_tree = some (cb1, q)
  value : cb.new_value = some (cb1, Ref.data q)
  stack : cb1.stack = ⟨kind.leaf, q⟩ :: base
  node : cb1.root.get? q = some Ptree.empty
  good : NoMixed cb1.root
  good0 : NoMixed cb.root

/-! ## Lines of a printed container -/

namespace details

/-- The text printed for child `i` of the children `cs` of a node at nesting
level `n`: in pretty mode `4 * (n + 1)` spaces; for an object the escaped key,
a colon and in pretty mode one space; the child printed at level `n + 1`; a
comma if and only if the child is not the last one; in pretty mode a
newline. -/
def child_line (pretty object : Bool) (cs : List (Str × Ptree)) (n i : Nat) : Str :=
  match cs[i]? with
  | none => []
  | some (k, c) =>
    (if pretty then spaces (4 * (n + 1)) else [])
      ++ (if object then create_escapes k ++ [Ch ':'] ++ (if pretty then [Ch ' '] else [])
          else [])
      ++ write_json_helper c (n + 1) pretty
      ++ (if i + 1 < cs.length then [Ch ','] else [])
      ++ (if pretty then [Ch '\n'] else [])

/-- The texts of all children, in stored order. -/
def child_lines (pretty object : Bool) (cs : List (Str × Ptree)) (n : Nat) : Str :=
  ((List.range cs.length).map (child_line pretty object cs n)).flatten

end details

namespace details

/-- The units the loop body of `create_escapes` copies unchanged: those from
space to 0xFF other than slash and backslash, a quote only where the test
`b != beg && std::next(b) != e` fails. -/
def copied (c : Nat) (interior : Bool) : Bool :=
  decide (0x20 ≤ c) && decide (c ≤ 0xFF) && (c != Ch '/') && (c != backslash)
    && ((c != quote) || !interior)

end details

/-- The shape of a stored child key: empty, or at least two units of which the
first and the last are the quote character. -/
def key_shape (k : Str) : Prop :=
  k = [] ∨ (2 ≤ k.length ∧ k.head? = some quote ∧ k.getLast? = some quote)

/-- Every child key of every node of the tree has the shape `key_shape`. -/
def KeysOk (t : Ptree) : Prop :=
  ∀ p n, t.get? p = some n → ∀ kc ∈ n.children, key_shape kc.1

namespace details

/-- The value of an uppercase hexadecimal digit. -/
def hex_value (h : Nat) : Nat :=
  if h ≤ Ch '9' then h - Ch '0' else h - Ch 'A' + 10

/-- The unit denoted by the second unit of a two-unit escape. -/
def unescape (e : Nat) : Nat :=
  if e = Ch 'b' then Ch '\x08'
  else if e = Ch 'f' then Ch '\x0c'
  else if e = Ch 'n' then Ch '\n'
  else if e = Ch 'r' then Ch '\r'
  else if e = Ch 't' then Ch '\t'
  else e

/-- Read back the first piece of an escaped text: the unit it stands for and
the remaining text.  A backslash starts a two-unit escape or, followed by
`u`, a six-unit escape; any other unit stands for itself. -/
def decode_piece : Str → Option (Nat × Str)
  | [] => none
  | c :: rest =>
    if c = backslash then
      match rest with
      | [] => none
      | e :: rest1 =>
        if e = Ch 'u' then
          match rest1 with
          | h1 :: h2 :: h3 :: h4 :: rest2 =>
            some (4096 * hex_value h1 + 256 * hex_value h2 + 16 * hex_value h3 + hex_value h4,
              rest2)
          | _ => none
        else some (unescape e, rest1)
    else some (c, rest)

end details

/-! ## Notions used to state the contract of the builder -/

/-- Whether `new_tree()`, called with this stack, executes the
`BOOST_ASSERT(false)` of line 171: the control flow of lines 151-183 (an
empty stack, an array frame and a key frame return; a leaf frame is popped
and the function calls itself; an object frame reaches the assertion). -/
def new_tree_asserts : List layer → Bool
  | [] => false
  | l :: rest =>
    match l.k with
    | kind.array => false
    | kind.object => true
    | kind.key => false
    | kind.leaf => new_tree_asserts rest

/-- Whether `new_value()`, called with this stack, executes the
`BOOST_ASSERT(false)` of `new_tree` through one of its calls of `new_tree`
(lines 185-202). -/
def new_value_asserts : List layer → Bool
  | [] => new_tree_asserts []
  | l :: rest =>
    match l.k with
    | kind.leaf => new_value_asserts rest
    | kind.object => false
    | _ => new_tree_asserts (l :: rest)

/-- The kind of the frame removed by the last `stack.pop_back()` of
`on_end_array` / `on_end_object` (lines 96-101, 108-113): the top frame, or
the frame below it when the top frame is a leaf; `none` when there is no such
frame. -/
def popped_kind : List layer → Option kind
  | [] => none
  | l :: rest =>
    if l.k = kind.leaf then
      match rest with
      | [] => none
      | l2 :: _ => some l2.k
    else some l.k

/-- The contract of an event in a state: a container start does not reach the
assertion of `new_tree`, nor does a scalar start through `new_value`; an event
that appends to `current_value()` finds a non-empty stack; an array end pops
an array frame and an object end pops an object frame. -/
def Safe (cb : standard_callbacks) : Event → Prop
  | Event.on_begin_array => new_tree_asserts cb.stack = false
  | Event.on_begin_object => new_tree_asserts cb.stack = false
  | Event.on_null => new_value_asserts cb.stack = false
  | Event.on_boolean _ => new_value_asserts cb.stack = false
  | Event.on_number _ => new_value_asserts cb.stack = false
  | Event.on_begin_number => new_value_asserts cb.stack = false
  | Event.on_begin_string => new_value_asserts cb.stack = false
  | Event.on_digit _ => cb.stack ≠ []
  | Event.on_code_unit _ => cb.stack ≠ []
  | Event.on_code_units _ => cb.stack ≠ []
  | Event.on_end_string => cb.stack ≠ []
  | Event.on_end_number => True
  | Event.on_end_array => popped_kind cb.stack = some kind.array
  | Event.on_end_object => popped_kind cb.stack = some kind.object

/-- A value position: the start of the document (empty stack, empty root), or
a place below an array frame or a key frame, possibly under the leaf frame of
the value that came before. -/
def ValuePos (cb : standard_callbacks) : Prop :=
  (cb.stack = [] ∧ cb.root = Ptree.empty) ∨
    ∃ (fk : kind) (p : Path) (base : List layer) (d : Str) (cs : List (Str × Ptree)),
      (fk = kind.array ∨ fk = kind.key) ∧ TopIs cb.stack ⟨fk, p⟩ base ∧
        cb.root.get? p = some (Ptree.mk d cs)

/-- The situation in which an event of a well-formed stream finds the
builder. -/
def Situation (cb : standard_callbacks) : Event → Prop
  | Event.on_null => ValuePos cb
  | Event.on_boolean _ => ValuePos cb
  | Event.on_number _ => ValuePos cb
  | Event.on_begin_number => ValuePos cb
  | Event.on_begin_array => ValuePos cb
  | Event.on_begin_object => ValuePos cb
  | Event.on_begin_string => ValuePos cb ∨ ∃ p base, TopIs cb.stack ⟨kind.object, p⟩ base
  | Event.on_digit _ => ∃ q rest, cb.stack = ⟨kind.leaf, q⟩ :: rest
  | Event.on_end_number => ∃ q rest, cb.stack = ⟨kind.leaf, q⟩ :: rest
  | Event.on_code_unit _ => ∃ l rest, cb.stack = l :: rest ∧ (l.k = kind.leaf ∨ l.k = kind.key)
  | Event.on_code_units _ => ∃ l rest, cb.stack = l :: rest ∧ (l.k = kind.leaf ∨ l.k = kind.key)
  | Event.on_end_string => ∃ l rest, cb.stack = l :: rest ∧ (l.k = kind.leaf ∨ l.k = kind.key)
  | Event.on_end_array => ∃ p base, TopIs cb.stack ⟨kind.array, p⟩ base
  | Event.on_end_object => ∃ p base, TopIs cb.stack ⟨kind.object, p⟩ base

/-- Every event of `es`, delivered in order from `cb`, is accepted and finds
the builder in a state related to it by `Q`. -/
def Steps (Q : standard_callbacks → Event → Prop) : List Event → standard_callbacks → Prop
  | [], _ => True
  | e :: es, cb => Q cb e ∧ ∃ cb1, step cb e = some cb1 ∧ Steps Q es cb1

/-! ## Positions in a document -/

/-- The value at index `i` of an array (its element) or of an object (the
value of its member). -/
def Value.child? : Value → Nat → Option Value
  | Value.array es, i => es[i]?
  | Value.object ms, i =>
    match ms[i]? with
    | some (_, v) => some v
    | none => none
  | _, _ => none

/-- The value at a position of a document: the position is the list of the
indices leading from the top-level value to it, so the empty list is the top
level and a position of length `n` lies at nesting level `n`. -/
def Value.sub? : Value → Path → Option Value
  | v, [] => some v
  | v, i :: p =>
    match v.child? i with
    | none => none
    | some w => Value.sub? w p

/-! ## Lemmas on trees and pointers -/

theorem noMixed_mk (d : Str) (cs : List (Str × Ptree)) :
    NoMixed (Ptree.mk d cs) ↔
      (Ptree.mk d cs).mixed = false ∧ ∀ kc ∈ cs, NoMixed kc.2 := by
  constructor
  · intro h
    refine ⟨h [] _ rfl, ?_⟩
    intro kc hkc p n hn
    obtain ⟨i, hi, rfl⟩ := List.getElem_of_mem hkc
    apply h (i :: p) n
    simp [Ptree.get?, List.getElem?_eq_getElem hi, hn]
  · rintro ⟨h0, hc⟩ p n hn
    cases p with
    | nil => simp [Ptree.get?] at hn; subst hn; exact h0
    | cons i p =>
      simp only [Ptree.get?] at hn
      cases hi : cs[i]? with
      | none => simp [hi] at hn
      | some kc =>
        obtain ⟨k, c⟩ := kc
        simp [hi] at hn
        exact hc (k, c) (List.mem_iff_getElem?.2 ⟨i, hi⟩) p n hn

namespace details

mutual
theorem verify_json_iff : ∀ (t : Ptree) (depth : Nat),
    verify_json t depth = true ↔ (depth = 0 → t.data = []) ∧ NoMixed t
  | Ptree.mk d cs, depth => by
    rw [noMixed_mk, verify_json, ← verify_json_children_iff cs depth]
    cases d <;> cases cs <;> simp [Ptree.mixed, Ptree.data, verify_json_children]
theorem verify_json_children_iff : ∀ (cs : List (Str × Ptree)) (depth : Nat),
    verify_json_children cs depth = true ↔ ∀ kc ∈ cs, NoMixed kc.2
  | [], _ => by simp [verify_json_children]
  | (k, c) :: rest, depth => by
    simp [verify_json_children, verify_json_iff c (depth + 1),
      verify_json_children_iff rest depth]
end

end details

namespace Ptree

@[simp] theorem put_nil (n t : Ptree) : put n t [] = n := by
  cases t
  simp [put]

@[simp] theorem get?_nil (t : Ptree) : t.get? [] = some t := by
  cases t
  simp [get?]

theorem modify_eq_put (f : Ptree → Ptree) :
    ∀ (p : Path) (t m : Ptree), t.get? p = some m → t.modify f p = some (put (f m) t p)
  | [], t, m, h => by
    simp only [get?, Option.some.injEq] at h
    subst h
    cases t
    rfl
  | i :: p, mk d cs, m, h => by
    simp only [get?] at h
    cases hi : cs[i]? with
    | none => simp [hi] at h
    | some kc =>
      obtain ⟨k, c⟩ := kc
      simp only [hi] at h
      simp only [modify, put, hi, modify_eq_put f p c m h]

theorem get?_put (n : Ptree) :
    ∀ (p : Path) (t m : Ptree), t.get? p = some m → (put n t p).get? p = some n
  | [], t, m, _ => by simp
  | i :: p, mk d cs, m, h => by
    simp only [get?] at h
    cases hi : cs[i]? with
    | none => simp [hi] at h
    | some kc =>
      obtain ⟨k, c⟩ := kc
      simp only [hi] at h
      have hlt : i < cs.length := (List.getElem?_eq_some_iff.1 hi).1
      simp [put, hi, get?, List.getElem?_set_self hlt, get?_put n p c m h]

theorem put_put (n n' : Ptree) :
    ∀ (p : Path) (t : Ptree), put n' (put n t p) p = put n' t p
  | [], t => by simp
  | i :: p, mk d cs => by
    cases hi : cs[i]? with
    | none => simp [put, hi]
    | some kc =>
      obtain ⟨k, c⟩ := kc
      have hlt : i < cs.length := (List.getElem?_eq_some_iff.1 hi).1
      simp [put, hi, List.getElem?_set_self hlt, put_put n n' p c]

theorem get?_snoc (i : Nat) (k : Str) (c : Ptree) :
    ∀ (p : Path) (t : Ptree) (d : Str) (cs : List (Str × Ptree)),
      t.get? p = some (mk d cs) → cs[i]? = some (k, c) → t.get? (p ++ [i]) = some c
  | [], t, d, cs, h, hi => by
    simp only [get?, Option.some.injEq] at h
    subst h
    simp [get?, hi]
  | j :: p, mk d0 cs0, d, cs, h, hi => by
    simp only [get?] at h
    cases hj : cs0[j]? with
    | none => simp [hj] at h
    | some kc =>
      obtain ⟨k0, c0⟩ := kc
      simp only [hj] at h
      simp [get?, hj, get?_snoc i k c p c0 d cs h hi]

theorem put_snoc (i : Nat) (k : Str) (c c' : Ptree) :
    ∀ (p : Path) (t : Ptree) (d : Str) (cs : List (Str × Ptree)),
      t.get? p = some (mk d cs) → cs[i]? = some (k, c) →
      put c' t (p ++ [i]) = put (mk d (cs.set i (k, c'))) t p
  | [], t, d, cs, h, hi => by
    simp only [get?, Option.some.injEq] at h
    subst h
    simp [put, hi]
  | j :: p, mk d0 cs0, d, cs, h, hi => by
    simp only [get?] at h
    cases hj : cs0[j]? with
    | none => simp [hj] at h
    | some kc =>
      obtain ⟨k0, c0⟩ := kc
      simp only [hj] at h
      simp [put, hj, put_snoc i k c c' p c0 d cs h hi]

end Ptree

theorem mixed_set (d : Str) (cs : List (Str × Ptree)) (i : Nat) (x : Str × Ptree) :
    (Ptree.mk d (cs.set i x)).mixed = (Ptree.mk d cs).mixed := by
  cases cs <;> cases i <;> simp [Ptree.mixed]

theorem noMixed_put (n : Ptree) (hn : NoMixed n) :
    ∀ (p : Path) (t m : Ptree), NoMixed t → t.get? p = some m → NoMixed (Ptree.put n t p)
  | [], t, m, _, _ => by simpa using hn
  | i :: p, Ptree.mk d cs, m, ht, h => by
    simp only [Ptree.get?] at h
    cases hi : cs[i]? with
    | none => simp [hi] at h
    | some kc =>
      obtain ⟨k, c⟩ := kc
      simp only [hi] at h
      rw [noMixed_mk] at ht
      simp only [Ptree.put, hi]
      rw [noMixed_mk, mixed_set]
      refine ⟨ht.1, ?_⟩
      intro kc hkc
      rcases List.mem_or_eq_of_mem_set hkc with h1 | h1
      · exact ht.2 kc h1
      · subst h1
        exact noMixed_put n hn p c m (ht.2 (k, c) (List.mem_iff_getElem?.2 ⟨i, hi⟩)) h


/-! ## Lemmas on runs -/

theorem run_append (es1 es2 : List Event) (cb : standard_callbacks) :
    run (es1 ++ es2) cb = (run es1 cb).bind (run es2) := by
  induction es1 generalizing cb with
  | nil => simp [run]
  | cons e es ih =>
    simp only [List.cons_append, run]
    cases step cb e with
    | none => simp
    | some cb1 => simpa using ih cb1

theorem always_head {Q : standard_callbacks → Prop} {es : List Event}
    {cb : standard_callbacks} (h : Always Q es cb) : Q cb := by
  cases es with
  | nil => exact h
  | cons e es => exact h.1

theorem always_append {Q : standard_callbacks → Prop} (es1 es2 : List Event)
    (cb cb1 : standard_callbacks) (h1 : Always Q es1 cb) (hr : run es1 cb = some cb1)
    (h2 : Always Q es2 cb1) : Always Q (es1 ++ es2) cb := by
  induction es1 generalizing cb with
  | nil =>
    simp only [run, Option.some.injEq] at hr
    subst hr
    simpa using h2
  | cons e es ih =>
    obtain ⟨hq, c, hc, hrest⟩ := h1
    simp only [run, hc] at hr
    exact ⟨hq, c, hc, ih c hrest hr⟩

theorem always_iff_take (Q : standard_callbacks → Prop) (es : List Event)
    (cb : standard_callbacks) :
    Always Q es cb ↔ ∀ n, ∃ cb', run (es.take n) cb = some cb' ∧ Q cb' := by
  induction es generalizing cb with
  | nil => simp [Always, run]
  | cons e es ih =>
    constructor
    · rintro ⟨hq, c, hc, hrest⟩ n
      cases n with
      | zero => exact ⟨cb, by simp [run], hq⟩
      | succ n =>
        obtain ⟨cb', h1, h2⟩ := (ih c).1 hrest n
        exact ⟨cb', by simp [run, hc, h1], h2⟩
    · intro h
      refine ⟨?_, ?_⟩
      · obtain ⟨cb', h1, h2⟩ := h 0
        simp only [List.take_zero, run, Option.some.injEq] at h1
        subst h1
        exact h2
      · obtain ⟨cb', h1, _⟩ := h 1
        simp only [List.take_succ_cons, List.take_zero, run] at h1
        cases hc : step cb e with
        | none => simp [hc] at h1
        | some c =>
          refine ⟨c, rfl, (ih c).2 ?_⟩
          intro n
          obtain ⟨cb'', h3, h4⟩ := h (n + 1)
          simp only [List.take_succ_cons, run, hc] at h3
          exact ⟨cb'', h3, h4⟩

theorem runs_nil {Q : standard_callbacks → Prop} {cb : standard_callbacks} (h : Q cb) :
    Runs Q [] cb cb := ⟨rfl, h⟩

theorem runs_cons {Q : standard_callbacks → Prop} {e : Event} {es : List Event}
    {cb cb1 cb' : standard_callbacks} (hq : Q cb) (hs : step cb e = some cb1)
    (h : Runs Q es cb1 cb') : Runs Q (e :: es) cb cb' :=
  ⟨by simp [run, hs, h.1], hq, cb1, hs, h.2⟩

theorem runs_append {Q : standard_callbacks → Prop} {es1 es2 : List Event}
    {cb cb1 cb' : standard_callbacks} (h1 : Runs Q es1 cb cb1) (h2 : Runs Q es2 cb1 cb') :
    Runs Q (es1 ++ es2) cb cb' :=
  ⟨by simp [run_append, h1.1, h2.1], always_append es1 es2 cb cb1 h1.2 h1.1 h2.2⟩

theorem runs_last {Q : standard_callbacks → Prop} {es : List Event}
    {cb cb' : standard_callbacks} (h : Runs Q es cb cb') : Q cb' := by
  induction es generalizing cb with
  | nil =>
    obtain ⟨h1, h2⟩ := h
    simp only [run, Option.some.injEq] at h1
    subst h1
    exact h2
  | cons e es ih =>
    obtain ⟨h1, _, c, hc, hrest⟩ := h
    simp only [run, hc] at h1
    exact ih ⟨h1, hrest⟩

/-! ## Further lemmas on pointers -/

theorem Ptree.get?_append (q : Path) :
    ∀ (p : Path) (t : Ptree), t.get? (p ++ q) = (t.get? p).bind (fun m => m.get? q)
  | [], t => by simp
  | i :: p, Ptree.mk d cs => by
    cases hi : cs[i]? with
    | none => simp [Ptree.get?, hi]
    | some kc =>
      obtain ⟨k, c⟩ := kc
      simp [Ptree.get?, hi, Ptree.get?_append q p c]

theorem noMixed_get? {t m : Ptree} {p : Path} (ht : NoMixed t) (h : t.get? p = some m) :
    NoMixed m := by
  intro q n hn
  apply ht (p ++ q) n
  simp [Ptree.get?_append, h, hn]

theorem noMixed_leaf (s : Str) : NoMixed (Ptree.mk s []) := by
  rw [noMixed_mk]
  simp [Ptree.mixed]

theorem noMixed_snoc {cs : List (Str × Ptree)} {k : Str} {c : Ptree}
    (h : NoMixed (Ptree.mk [] cs)) (hc : NoMixed c) : NoMixed (Ptree.mk [] (cs ++ [(k, c)])) := by
  rw [noMixed_mk] at h ⊢
  refine ⟨by simp [Ptree.mixed], ?_⟩
  intro kc hkc
  rcases List.mem_append.1 hkc with h1 | h1
  · exact h.2 kc h1
  · simp only [List.mem_singleton] at h1
    subst h1
    exact hc

theorem Ptree.get?_new_child {t m : Ptree} {p : Path} (d : Str) (cs : List (Str × Ptree))
    (k : Str) (c : Ptree) (h : t.get? p = some m) :
    (Ptree.put (Ptree.mk d (cs ++ [(k, c)])) t p).get? (p ++ [cs.length]) = some c :=
  Ptree.get?_snoc cs.length k c p _ d _ (Ptree.get?_put _ p t m h) (by simp)

theorem Ptree.put_new_child {t m : Ptree} {p : Path} (d : Str) (cs : List (Str × Ptree))
    (k : Str) (c c' : Ptree) (h : t.get? p = some m) :
    Ptree.put c' (Ptree.put (Ptree.mk d (cs ++ [(k, c)])) t p) (p ++ [cs.length])
      = Ptree.put (Ptree.mk d (cs ++ [(k, c')])) t p := by
  rw [Ptree.put_snoc cs.length k c c' p _ d _ (Ptree.get?_put _ p t m h) (by simp),
    Ptree.put_put]
  simp


theorem list_set_of_getElem? {α : Type} :
    ∀ (l : List α) (i : Nat) (a : α), l[i]? = some a → l.set i a = l
  | [], _, _, h => by simp at h
  | x :: l, 0, a, h => by
    simp only [List.getElem?_cons_zero, Option.some.injEq] at h
    simp [h]
  | x :: l, i + 1, a, h => by
    simp only [List.getElem?_cons_succ] at h
    simp [list_set_of_getElem? l i a h]

theorem Ptree.put_self :
    ∀ (p : Path) (t m : Ptree), t.get? p = some m → Ptree.put m t p = t
  | [], t, m, h => by simpa using h.symm
  | i :: p, Ptree.mk d cs, m, h => by
    simp only [Ptree.get?] at h
    cases hi : cs[i]? with
    | none => simp [hi] at h
    | some kc =>
      obtain ⟨k, c⟩ := kc
      simp only [hi] at h
      simp only [Ptree.put, hi, Ptree.put_self p c m h]
      congr 1
      exact list_set_of_getElem? cs i _ hi

/-! ## Single steps of the builder -/

namespace standard_callbacks

theorem new_tree_aux_drop_leaf (root : Ptree) (kb : Str) (q : Path) (st : List layer) :
    new_tree_aux root kb (⟨kind.leaf, q⟩ :: st) = new_tree_aux root kb st := by
  simp [new_tree_aux]

theorem new_value_aux_drop_leaf (root : Ptree) (kb : Str) (q : Path) (st : List layer) :
    new_value_aux root kb (⟨kind.leaf, q⟩ :: st) = new_value_aux root kb st := by
  simp [new_value_aux]

/-- Slot resolution at a value position below an array or key frame. -/
theorem new_tree_aux_at {root : Ptree} {kb : Str} {stack base : List layer} {fk : kind}
    {p : Path} {d : Str} {cs : List (Str × Ptree)}
    (hfk : fk = kind.array ∨ fk = kind.key) (hst : TopIs stack ⟨fk, p⟩ base)
    (hp : root.get? p = some (Ptree.mk d cs)) :
    new_tree_aux root kb stack =
      some (⟨Ptree.put (Ptree.mk d (cs ++ [(slot_key fk kb, Ptree.empty)])) root p, kb,
              ⟨kind.leaf, p ++ [cs.length]⟩ :: ⟨slot_kind fk, p⟩ :: base⟩,
            p ++ [cs.length]) := by
  have key : new_tree_aux root kb (⟨fk, p⟩ :: base) =
      some (⟨Ptree.put (Ptree.mk d (cs ++ [(slot_key fk kb, Ptree.empty)])) root p, kb,
              ⟨kind.leaf, p ++ [cs.length]⟩ :: ⟨slot_kind fk, p⟩ :: base⟩,
            p ++ [cs.length]) := by
    rcases hfk with rfl | rfl <;>
      simp [new_tree_aux, hp, Ptree.modify_eq_put _ p root _ hp, Ptree.push_back,
        Ptree.children, slot_key, slot_kind]
  rcases hst with rfl | ⟨q, rfl⟩
  · exact key
  · rw [new_tree_aux_drop_leaf]; exact key

theorem new_value_aux_at {root : Ptree} {kb : Str} {stack base : List layer} {fk : kind}
    {p : Path} {d : Str} {cs : List (Str × Ptree)}
    (hfk : fk = kind.array ∨ fk = kind.key) (hst : TopIs stack ⟨fk, p⟩ base)
    (hp : root.get? p = some (Ptree.mk d cs)) :
    new_value_aux root kb stack =
      some (⟨Ptree.put (Ptree.mk d (cs ++ [(slot_key fk kb, Ptree.empty)])) root p, kb,
              ⟨kind.leaf, p ++ [cs.length]⟩ :: ⟨slot_kind fk, p⟩ :: base⟩,
            Ref.data (p ++ [cs.length])) := by
  have key : new_value_aux root kb (⟨fk, p⟩ :: base) =
      some (⟨Ptree.put (Ptree.mk d (cs ++ [(slot_key fk kb, Ptree.empty)])) root p, kb,
              ⟨kind.leaf, p ++ [cs.length]⟩ :: ⟨slot_kind fk, p⟩ :: base⟩,
            Ref.data (p ++ [cs.length])) := by
    have h : new_tree_aux root kb (⟨fk, p⟩ :: base) = _ :=
      new_tree_aux_at hfk (Or.inl rfl : TopIs (⟨fk, p⟩ :: base) ⟨fk, p⟩ base) hp
    rcases hfk with rfl | rfl <;> simp [new_value_aux, h]
  rcases hst with rfl | ⟨q, rfl⟩
  · exact key
  · rw [new_value_aux_drop_leaf]; exact key

/-- Slot resolution below an object frame: the value is a key. -/
theorem new_value_aux_at_object {root : Ptree} {kb : Str} {stack base : List layer}
    {p : Path} (hst : TopIs stack ⟨kind.object, p⟩ base) :
    new_value_aux root kb stack =
      some (⟨root, [], ⟨kind.key, p⟩ :: base⟩, Ref.key_buffer) := by
  rcases hst with rfl | ⟨q, rfl⟩ <;> simp [new_value_aux]

end standard_callbacks

/-- An appending event on a `leaf` frame extends the payload of its node. -/
theorem step_append_leaf {root : Ptree} {kb : Str} {q : Path} {rest : List layer}
    {s x : Str} {kids : List (Str × Ptree)} {e : Event} (he : e.appended = some x)
    (h : root.get? q = some (Ptree.mk s kids)) :
    step ⟨root, kb, ⟨kind.leaf, q⟩ :: rest⟩ e =
      some ⟨Ptree.put (Ptree.mk (s ++ x) kids) root q, kb, ⟨kind.leaf, q⟩ :: rest⟩ := by
  cases e <;> simp [Event.appended] at he <;> subst he <;>
    simp [step, standard_callbacks.on_digit, standard_callbacks.on_code_unit,
      standard_callbacks.on_code_units, standard_callbacks.on_end_string,
      standard_callbacks.current_value, standard_callbacks.update,
      Ptree.modify_eq_put _ q root _ h, Ptree.map_data]

/-- An appending event on a `key` frame extends the pending-key buffer. -/
theorem step_append_key {root : Ptree} {kb : Str} {p : Path} {rest : List layer}
    {x : Str} {e : Event} (he : e.appended = some x) :
    step ⟨root, kb, ⟨kind.key, p⟩ :: rest⟩ e =
      some ⟨root, kb ++ x, ⟨kind.key, p⟩ :: rest⟩ := by
  cases e <;> simp [Event.appended] at he <;> subst he <;>
    simp [step, standard_callbacks.on_digit, standard_callbacks.on_code_unit,
      standard_callbacks.on_code_units, standard_callbacks.on_end_string,
      standard_callbacks.current_value, standard_callbacks.update]

theorem runs_leaf_appends (es : List Event) (hes : ∀ e ∈ es, e.appended.isSome = true) :
    ∀ (root : Ptree) (kb : Str) (q : Path) (rest : List layer) (s : Str),
      root.get? q = some (Ptree.mk s []) → NoMixed root →
      Runs Good es ⟨root, kb, ⟨kind.leaf, q⟩ :: rest⟩
        ⟨Ptree.put (Ptree.mk (s ++ appended_text es) []) root q, kb, ⟨kind.leaf, q⟩ :: rest⟩ := by
  induction es with
  | nil =>
    intro root kb q rest s h hG
    have : Ptree.put (Ptree.mk s []) root q = root := Ptree.put_self q root _ h
    simp only [appended_text, List.append_nil, this]
    exact runs_nil hG
  | cons e es ih =>
    intro root kb q rest s h hG
    obtain ⟨x, hx⟩ := Option.isSome_iff_exists.1 (hes e (List.mem_cons_self _ _))
    have h1 : step ⟨root, kb, ⟨kind.leaf, q⟩ :: rest⟩ e = _ := step_append_leaf hx h
    have h2 := ih (fun e' he' => hes e' (List.mem_cons_of_mem _ he'))
      (Ptree.put (Ptree.mk (s ++ x) []) root q) kb q rest (s ++ x)
      (Ptree.get?_put _ q root _ h) (noMixed_put _ (noMixed_leaf _) q root _ hG h)
    rw [Ptree.put_put] at h2
    simp only [appended_text, hx, Option.getD_some, ← List.append_assoc]
    exact runs_cons hG h1 h2

theorem runs_key_appends (es : List Event) (hes : ∀ e ∈ es, e.appended.isSome = true) :
    ∀ (root : Ptree) (kb : Str) (p : Path) (rest : List layer), NoMixed root →
      Runs Good es ⟨root, kb, ⟨kind.key, p⟩ :: rest⟩
        ⟨root, kb ++ appended_text es, ⟨kind.key, p⟩ :: rest⟩ := by
  induction es with
  | nil =>
    intro root kb p rest hG
    simp only [appended_text, List.append_nil]
    exact runs_nil hG
  | cons e es ih =>
    intro root kb p rest hG
    obtain ⟨x, hx⟩ := Option.isSome_iff_exists.1 (hes e (List.mem_cons_self _ _))
    have h1 : step ⟨root, kb, ⟨kind.key, p⟩ :: rest⟩ e = _ := step_append_key hx
    have h2 := ih (fun e' he' => hes e' (List.mem_cons_of_mem _ he')) root (kb ++ x) p rest hG
    simp only [appended_text, hx, Option.getD_some, ← List.append_assoc]
    exact runs_cons hG h1 h2


theorem resolved_at {cb : standard_callbacks} {fk : kind} {p : Path} {base : List layer}
    {cs : List (Str × Ptree)} (hfk : fk = kind.array ∨ fk = kind.key)
    (hst : TopIs cb.stack ⟨fk, p⟩ base) (hp : cb.root.get? p = some (Ptree.mk [] cs))
    (hG : NoMixed cb.root) :
    Resolved cb
      ⟨Ptree.put (Ptree.mk [] (cs ++ [(slot_key fk cb.key_buffer, Ptree.empty)])) cb.root p,
        cb.key_buffer, ⟨kind.leaf, p ++ [cs.length]⟩ :: ⟨slot_kind fk, p⟩ :: base⟩
      (p ++ [cs.length]) (⟨slot_kind fk, p⟩ :: base) where
  tree := standard_callbacks.new_tree_aux_at hfk hst hp
  value := standard_callbacks.new_value_aux_at hfk hst hp
  stack := rfl
  node := Ptree.get?_new_child _ _ _ _ hp
  good := noMixed_put _ (noMixed_snoc (noMixed_get? hG hp) (noMixed_leaf [])) p _ _ hG hp
  good0 := hG

theorem resolved_fresh :
    Resolved standard_callbacks.fresh ⟨Ptree.empty, [], [⟨kind.leaf, []⟩]⟩ [] [] where
  tree := rfl
  value := rfl
  stack := rfl
  node := rfl
  good := noMixed_leaf []
  good0 := noMixed_leaf []

/-- The end of a container: an optional `leaf` frame is dropped, then the
frame of the container is popped. -/
theorem on_end_at {cb : standard_callbacks} {fr : layer} {base : List layer}
    (hst : TopIs cb.stack fr base) (hk : fr.k ≠ kind.leaf) :
    cb.on_end = some { cb with stack := base } := by
  rcases hst with h | ⟨q, h⟩
  · simp [standard_callbacks.on_end, h, hk, standard_callbacks.pop_back]
  · simp [standard_callbacks.on_end, h, standard_callbacks.pop_back]

theorem appended_text_append (es1 es2 : List Event) :
    appended_text (es1 ++ es2) = appended_text es1 ++ appended_text es2 := by
  induction es1 with
  | nil => rfl
  | cons e es ih => simp [appended_text, ih]

theorem appended_text_digits (t : Str) : appended_text (t.map Event.on_digit) = t := by
  induction t with
  | nil => rfl
  | cons d t ih => simp [appended_text, Event.appended, ih]

theorem appended_text_chunks (cs : List Chunk) :
    appended_text (cs.map Chunk.event) = chunks_text cs := by
  induction cs with
  | nil => rfl
  | cons c cs ih => cases c <;> simp [appended_text, Event.appended, Chunk.event, chunks_text, Chunk.text, ih]

theorem appended_digits (t : Str) : ∀ e ∈ t.map Event.on_digit, e.appended.isSome = true := by
  intro e he
  obtain ⟨d, _, rfl⟩ := List.mem_map.1 he
  rfl

theorem appended_string_tail (cs : List Chunk) :
    ∀ e ∈ cs.map Chunk.event ++ [Event.on_end_string], e.appended.isSome = true := by
  intro e he
  rcases List.mem_append.1 he with h | h
  · obtain ⟨c, _, rfl⟩ := List.mem_map.1 h
    cases c <;> rfl
  · simp only [List.mem_singleton] at h
    subst h
    rfl

theorem appended_text_string_tail (cs : List Chunk) :
    appended_text (cs.map Chunk.event ++ [Event.on_end_string]) = chunks_text cs ++ [quote] := by
  rw [appended_text_append, appended_text_chunks]
  rfl

/-- A scalar delivered by one bulk event through `new_value() = text`. -/
theorem runs_assign {cb cb1 : standard_callbacks} {q : Path} {base : List layer}
    (h : Resolved cb cb1 q base) (e : Event) (text : Str)
    (he : ∀ c, step c e = match c.new_value with
      | some (c1, r) => c1.update r (fun _ => text)
      | none => none) :
    ∃ cb', Runs Good [e] cb cb' ∧ cb'.root = Ptree.put (Ptree.mk text []) cb1.root q ∧
      cb'.stack = ⟨kind.leaf, q⟩ :: base := by
  refine ⟨{ cb1 with root := Ptree.put (Ptree.mk text []) cb1.root q }, ?_, rfl, h.stack⟩
  refine runs_cons h.good0 ?_ (runs_nil ?_)
  · rw [he, h.value]
    simp [standard_callbacks.update, Ptree.modify_eq_put _ q _ _ h.node, Ptree.map_data,
      Ptree.empty]
  · exact noMixed_put _ (noMixed_leaf _) q _ _ h.good h.node


/-- A number delivered digit by digit. -/
theorem runs_digits {cb cb1 : standard_callbacks} {q : Path} {base : List layer}
    (h : Resolved cb cb1 q base) (t : Str) :
    ∃ cb', Runs Good (number_events t false) cb cb' ∧
      cb'.root = Ptree.put (Ptree.mk t []) cb1.root q ∧ cb'.stack = ⟨kind.leaf, q⟩ :: base := by
  obtain ⟨root1, kb1, st1⟩ := cb1
  have hst : st1 = ⟨kind.leaf, q⟩ :: base := h.stack
  subst hst
  have h1 : step cb Event.on_begin_number = some ⟨root1, kb1, ⟨kind.leaf, q⟩ :: base⟩ := by
    simp [step, standard_callbacks.on_begin_number, h.value]
  have h2 := runs_leaf_appends (t.map Event.on_digit) (appended_digits t) root1 kb1 q base []
    h.node h.good
  rw [appended_text_digits, List.nil_append] at h2
  have h3 : Runs Good [Event.on_end_number]
      ⟨Ptree.put (Ptree.mk t []) root1 q, kb1, ⟨kind.leaf, q⟩ :: base⟩
      ⟨Ptree.put (Ptree.mk t []) root1 q, kb1, ⟨kind.leaf, q⟩ :: base⟩ :=
    runs_cons (runs_last h2) rfl (runs_nil (runs_last h2))
  exact ⟨_, by simpa [number_events] using runs_cons h.good0 h1 (runs_append h2 h3), rfl, rfl⟩

/-- A string value delivered as `on_begin_string`, chunks, `on_end_string`. -/
theorem runs_string {cb cb1 : standard_callbacks} {q : Path} {base : List layer}
    (h : Resolved cb cb1 q base) (cs : List Chunk) :
    ∃ cb', Runs Good (string_events cs) cb cb' ∧
      cb'.root = Ptree.put (Ptree.mk (quoted (chunks_text cs)) []) cb1.root q ∧
      cb'.stack = ⟨kind.leaf, q⟩ :: base := by
  obtain ⟨root1, kb1, st1⟩ := cb1
  have hst : st1 = ⟨kind.leaf, q⟩ :: base := h.stack
  subst hst
  have hn : root1.get? q = some (Ptree.mk [] []) := h.node
  have h1 : step cb Event.on_begin_string =
      some ⟨Ptree.put (Ptree.mk [quote] []) root1 q, kb1, ⟨kind.leaf, q⟩ :: base⟩ := by
    simp [step, standard_callbacks.on_begin_string, h.value, standard_callbacks.current_value,
      standard_callbacks.update, Ptree.modify_eq_put _ q _ _ hn, Ptree.map_data]
  have h2 := runs_leaf_appends (cs.map Chunk.event ++ [Event.on_end_string])
    (appended_string_tail cs) (Ptree.put (Ptree.mk [quote] []) root1 q) kb1 q base [quote]
    (Ptree.get?_put _ q _ _ hn) (noMixed_put _ (noMixed_leaf _) q _ _ h.good hn)
  rw [appended_text_string_tail, Ptree.put_put] at h2
  exact ⟨_, runs_cons h.good0 h1 h2, rfl, rfl⟩

/-- An object key delivered as `on_begin_string`, chunks, `on_end_string`. -/
theorem runs_key {cb : standard_callbacks} {p : Path} {base : List layer}
    (hst : TopIs cb.stack ⟨kind.object, p⟩ base) (hG : NoMixed cb.root) (cs : List Chunk) :
    Runs Good (string_events cs) cb
      ⟨cb.root, quoted (chunks_text cs), ⟨kind.key, p⟩ :: base⟩ := by
  have h1 : step cb Event.on_begin_string =
      some ⟨cb.root, [quote], ⟨kind.key, p⟩ :: base⟩ := by
    simp [step, standard_callbacks.on_begin_string, standard_callbacks.new_value,
      standard_callbacks.new_value_aux_at_object hst, standard_callbacks.current_value,
      standard_callbacks.update]
  have h2 := runs_key_appends (cs.map Chunk.event ++ [Event.on_end_string])
    (appended_string_tail cs) cb.root [quote] p base hG
  rw [appended_text_string_tail] at h2
  exact runs_cons hG h1 h2

theorem topIs_of_if {b : Bool} {stack : List layer} {q : Path} {fr : layer}
    {base : List layer}
    (h : stack = if b = true then fr :: base else ⟨kind.leaf, q⟩ :: fr :: base) :
    TopIs stack fr base := by
  cases b
  · exact Or.inr ⟨q, by simpa using h⟩
  · exact Or.inl (by simpa using h)

mutual
/-- The events of a value, delivered where slot resolution yields the empty
node `q`, fill `q` with the reference tree of the value; a container leaves
the stack as it was below `q`, a scalar leaves the `leaf` frame of `q`. -/
theorem runs_value : ∀ (v : Value) (cb cb1 : standard_callbacks) (q : Path)
    (base : List layer), Resolved cb cb1 q base →
    ∃ cb', Runs Good (events v) cb cb' ∧ cb'.root = Ptree.put (tree v) cb1.root q ∧
      cb'.stack = if v.is_container = true then base else ⟨kind.leaf, q⟩ :: base
  | Value.null, cb, cb1, q, base, h => by
    simpa [events, tree, Value.is_container] using
      runs_assign h Event.on_null (str "null") (fun _ => rfl)
  | Value.boolean b, cb, cb1, q, base, h => by
    simpa [events, tree, Value.is_container] using
      runs_assign h (Event.on_boolean b) (if b then str "true" else str "false") (fun _ => rfl)
  | Value.number t true, cb, cb1, q, base, h => by
    simpa [events, tree, Value.is_container, number_events] using
      runs_assign h (Event.on_number t) t (fun _ => rfl)
  | Value.number t false, cb, cb1, q, base, h => by
    simpa [events, tree, Value.is_container] using runs_digits h t
  | Value.string cs, cb, cb1, q, base, h => by
    simpa [events, tree, Value.is_container] using runs_string h cs
  | Value.array es, cb, cb1, q, base, h => by
    obtain ⟨root1, kb1, st1⟩ := cb1
    have hst : st1 = ⟨kind.leaf, q⟩ :: base := h.stack
    subst hst
    have h1 : step cb Event.on_begin_array = some ⟨root1, kb1, ⟨kind.array, q⟩ :: base⟩ := by
      simp [step, standard_callbacks.on_begin_array, h.tree, standard_callbacks.set_back_kind]
    obtain ⟨cb2, h2, hr2, hs2⟩ := runs_elems es ⟨root1, kb1, ⟨kind.array, q⟩ :: base⟩ q base []
      (Or.inl rfl) h.node h.good
    have h3 : step cb2 Event.on_end_array = some { cb2 with stack := base } :=
      on_end_at hs2 (by simp)
    refine ⟨{ cb2 with stack := base }, ?_, ?_, ?_⟩
    · rw [events]
      have hg2 : Good cb2 := runs_last h2
      have hg : Good { cb2 with stack := base } := hg2
      exact runs_cons h.good0 h1 (runs_append h2 (runs_cons (runs_last h2) h3 (runs_nil hg)))
    · simpa [tree] using hr2
    · simp [Value.is_container]
  | Value.object ms, cb, cb1, q, base, h => by
    obtain ⟨root1, kb1, st1⟩ := cb1
    have hst : st1 = ⟨kind.leaf, q⟩ :: base := h.stack
    subst hst
    have h1 : step cb Event.on_begin_object = some ⟨root1, kb1, ⟨kind.object, q⟩ :: base⟩ := by
      simp [step, standard_callbacks.on_begin_object, h.tree, standard_callbacks.set_back_kind]
    obtain ⟨cb2, h2, hr2, hs2⟩ := runs_members ms ⟨root1, kb1, ⟨kind.object, q⟩ :: base⟩ q base []
      (Or.inl rfl) h.node h.good
    have h3 : step cb2 Event.on_end_object = some { cb2 with stack := base } :=
      on_end_at hs2 (by simp)
    refine ⟨{ cb2 with stack := base }, ?_, ?_, ?_⟩
    · rw [events]
      have hg2 : Good cb2 := runs_last h2
      have hg : Good { cb2 with stack := base } := hg2
      exact runs_cons h.good0 h1 (runs_append h2 (runs_cons (runs_last h2) h3 (runs_nil hg)))
    · simpa [tree] using hr2
    · simp [Value.is_container]
/-- The events of array elements, delivered below the array frame of node
`p`, append the element trees to `p` under the empty key. -/
theorem runs_elems : ∀ (es : List Value) (cb : standard_callbacks) (p : Path)
    (base : List layer) (cs : List (Str × Ptree)),
    TopIs cb.stack ⟨kind.array, p⟩ base → cb.root.get? p = some (Ptree.mk [] cs) →
    NoMixed cb.root →
    ∃ cb', Runs Good (events_elems es) cb cb' ∧
      cb'.root = Ptree.put (Ptree.mk [] (cs ++ tree_elems es)) cb.root p ∧
      TopIs cb'.stack ⟨kind.array, p⟩ base
  | [], cb, p, base, cs, hst, hp, hG => by
    refine ⟨cb, runs_nil hG, ?_, hst⟩
    simp [tree_elems, Ptree.put_self p _ _ hp]
  | v :: vs, cb, p, base, cs, hst, hp, hG => by
    have hres := resolved_at (Or.inl rfl) hst hp hG
    obtain ⟨cb2, h2, hr2, hs2⟩ := runs_value v _ _ _ _ hres
    simp only [slot_key, slot_kind, if_neg (by decide : ¬ kind.array = kind.key)] at hr2 hs2
    rw [Ptree.put_new_child _ _ _ _ _ hp] at hr2
    obtain ⟨cb3, h3, hr3, hs3⟩ := runs_elems vs cb2 p base (cs ++ [([], tree v)])
      (topIs_of_if hs2) (by rw [hr2]; exact Ptree.get?_put _ p _ _ hp) (runs_last h2)
    refine ⟨cb3, ?_, ?_, hs3⟩
    · rw [events_elems]
      exact runs_append h2 h3
    · rw [hr3, hr2, Ptree.put_put]
      simp [tree_elems]
/-- The events of object members, delivered below the object frame of node
`p`, append the value trees to `p`, each under its quoted key. -/
theorem runs_members : ∀ (ms : List (List Chunk × Value)) (cb : standard_callbacks)
    (p : Path) (base : List layer) (cs : List (Str × Ptree)),
    TopIs cb.stack ⟨kind.object, p⟩ base → cb.root.get? p = some (Ptree.mk [] cs) →
    NoMixed cb.root →
    ∃ cb', Runs Good (events_members ms) cb cb' ∧
      cb'.root = Ptree.put (Ptree.mk [] (cs ++ tree_members ms)) cb.root p ∧
      TopIs cb'.stack ⟨kind.object, p⟩ base
  | [], cb, p, base, cs, hst, hp, hG => by
    refine ⟨cb, runs_nil hG, ?_, hst⟩
    simp [tree_members, Ptree.put_self p _ _ hp]
  | (k, v) :: ms, cb, p, base, cs, hst, hp, hG => by
    have h1 := runs_key hst hG k
    have hres : Resolved ⟨cb.root, quoted (chunks_text k), ⟨kind.key, p⟩ :: base⟩ _ _ _ :=
      resolved_at (Or.inr rfl) (Or.inl rfl) hp hG
    obtain ⟨cb2, h2, hr2, hs2⟩ := runs_value v _ _ _ _ hres
    simp only [slot_key, slot_kind, if_pos] at hr2 hs2
    rw [Ptree.put_new_child _ _ _ _ _ hp] at hr2
    obtain ⟨cb3, h3, hr3, hs3⟩ := runs_members ms cb2 p base
      (cs ++ [(quoted (chunks_text k), tree v)])
      (topIs_of_if hs2) (by rw [hr2]; exact Ptree.get?_put _ p _ _ hp) (runs_last h2)
    refine ⟨cb3, ?_, ?_, hs3⟩
    · rw [events_members]
      exact runs_append h1 (runs_append h2 h3)
    · rw [hr3, hr2, Ptree.put_put]
      simp [tree_members]
end


/-! ## The claims on the builder and the verifier -/

/-- The run of a fresh builder over the events of a value: it is accepted,
builds the reference tree and, for a container, empties the stack. -/
theorem fresh_run_builds_tree (v : Value) :
    ∃ cb, run (events v) standard_callbacks.fresh = some cb ∧ cb.output = tree v ∧
      (v.is_container = true → cb.stack = []) := by
  obtain ⟨cb, h, hr, hs⟩ := runs_value v _ _ _ _ resolved_fresh
  refine ⟨cb, h.1, ?_, ?_⟩
  · simpa [standard_callbacks.output] using hr
  · intro hc
    simpa [hc] using hs

/-- C1: for every JSON value `v` (with any delivery of its numbers and
strings), a fresh builder accepts the well-formed event sequence of `v`, its
`output()` is then the reference tree of `v` (scalars as leaves holding their
text, strings between two quote characters, array elements in order under the
empty key, object members in order under their captured key text), and when
`v` is an array or an object the frame stack is empty after the last event. -/
theorem builder_output_eq_reference_tree (v : Value) :
    ∃ cb, run (events v) standard_callbacks.fresh = some cb ∧ cb.output = tree v ∧
      (v.is_container = true → cb.stack = []) :=
  fresh_run_builds_tree v

/-- C2: `verify_json(pt, 0)` returns true exactly when the root's scalar
payload is empty and no node anywhere in the tree (the root included, at any
depth) has both a non-empty scalar payload and at least one child. -/
theorem verify_json_root_iff (pt : Ptree) :
    details.verify_json pt 0 = true ↔
      pt.data = [] ∧
        ∀ (p : Path) (n : Ptree), pt.get? p = some n → ¬ (n.data ≠ [] ∧ n.children ≠ []) := by
  rw [details.verify_json_iff]
  have hm : ∀ n : Ptree, n.mixed = false ↔ ¬ (n.data ≠ [] ∧ n.children ≠ []) := by
    rintro ⟨d, cs⟩
    cases d <;> cases cs <;> simp [Ptree.mixed, Ptree.data, Ptree.children]
  constructor
  · rintro ⟨h0, h⟩
    exact ⟨h0 rfl, fun p n hn => (hm n).1 (h p n hn)⟩
  · rintro ⟨h0, h⟩
    exact ⟨fun _ => h0, fun p n hn => (hm n).2 (h p n hn)⟩

/-- C3: when `verify_json(pt, 0)` is false, `write_json` writes nothing at
all to the output stream. -/
theorem write_json_nothing_of_verify_false (pt : Ptree)
    (h : details.verify_json pt 0 = false) : details.write_json pt = [] := by
  simp [details.write_json, h]

/-- Witness for C3: a root carrying the scalar text `1` fails verification
and nothing is written. -/
theorem write_json_nothing_of_verify_false_witness :
    details.verify_json (Ptree.mk [Ch '1'] []) 0 = false ∧
      details.write_json (Ptree.mk [Ch '1'] []) = [] :=
  ⟨by decide, write_json_nothing_of_verify_false _ (by decide)⟩

/-- Counterexample to C6 as stated: for the scalar document `null`, whose
only event is `on_null`, the builder accepts the event and the root's scalar
payload is the text `null`, not the empty text. -/
theorem root_payload_nonempty_for_null :
    ∃ cb, run (events Value.null) standard_callbacks.fresh = some cb ∧
      cb.output.data = str "null" ∧ cb.output.data ≠ [] :=
  ⟨⟨Ptree.mk (str "null") [], [], [⟨kind.leaf, []⟩]⟩, by rfl, by rfl, by decide⟩

/-- C6 (amended): for every well-formed event stream whose top-level value is
an array or an object, the tree produced by the builder has an empty scalar
payload at its root. -/
theorem root_payload_empty_of_container (v : Value) (h : v.is_container = true) :
    ∃ cb, run (events v) standard_callbacks.fresh = some cb ∧ cb.output.data = [] := by
  obtain ⟨cb, hr, ht, _⟩ := fresh_run_builds_tree v
  refine ⟨cb, hr, ?_⟩
  rw [ht]
  cases v <;> simp [Value.is_container] at h <;> simp [tree, Ptree.data]

/-- Witness for C6 (amended): the array document `[null]`. -/
theorem root_payload_empty_of_container_witness :
    (Value.array [Value.null]).is_container = true ∧
      ∃ cb, run (events (Value.array [Value.null])) standard_callbacks.fresh = some cb ∧
        cb.output.data = [] :=
  ⟨rfl, root_payload_empty_of_container _ rfl⟩

/-- C7: for every well-formed event stream (strings delivered as
`on_begin_string`, code units, `on_end_string`), every event is accepted and
after every event (that is, after every prefix of the stream) no node of the
tree under construction has both a non-empty scalar payload and a non-empty
child list; in particular this holds for the finished tree. -/
theorem no_mixed_node_after_every_event (v : Value) :
    (∀ n : Nat, ∃ cb, run ((events v).take n) standard_callbacks.fresh = some cb ∧
        ∀ (p : Path) (m : Ptree), cb.root.get? p = some m →
          ¬ (m.data ≠ [] ∧ m.children ≠ [])) ∧
      ∃ cb, run (events v) standard_callbacks.fresh = some cb ∧
        ∀ (p : Path) (m : Ptree), cb.output.get? p = some m →
          ¬ (m.data ≠ [] ∧ m.children ≠ []) := by
  have hm : ∀ n : Ptree, n.mixed = false → ¬ (n.data ≠ [] ∧ n.children ≠ []) := by
    rintro ⟨d, cs⟩
    cases d <;> cases cs <;> simp [Ptree.mixed, Ptree.data, Ptree.children]
  obtain ⟨cb, h, _, _⟩ := runs_value v _ _ _ _ resolved_fresh
  refine ⟨?_, cb, h.1, fun p m hp => hm m (runs_last h p m hp)⟩
  intro n
  obtain ⟨cb', h1, h2⟩ := (always_iff_take Good _ _).1 h.2 n
  exact ⟨cb', h1, fun p m hp => hm m (h2 p m hp)⟩


/-! ## The escaper -/

namespace details

theorem create_escapes_loop_eq (rest : Str) :
    ∀ pre : Str, create_escapes_loop pre.isEmpty rest =
      ((List.range rest.length).map (fun j => emitted (pre ++ rest) (pre.length + j))).flatten := by
  induction rest with
  | nil => intro pre; simp [create_escapes_loop]
  | cons c r ih =>
    intro pre
    have h := ih (pre ++ [c])
    have he : (pre ++ [c]).isEmpty = false := by cases pre <;> rfl
    simp only [he, List.append_assoc, List.singleton_append, List.length_append,
      List.length_singleton] at h
    rw [create_escapes_loop, h, List.length_cons, List.range_succ_eq_map, List.map_cons,
      List.flatten_cons, List.map_map]
    congr 1
    · have hflag : (!pre.isEmpty && !r.isEmpty) =
          (pre.length + 0 != 0 && pre.length + 0 + 1 != (pre ++ c :: r).length) := by
        cases pre <;> cases r <;> simp
      simp only [emitted, hflag]
      congr 1
      have hget : (pre ++ c :: r)[pre.length]? = some c := by
        rw [List.getElem?_append_right (Nat.le_refl _)]
        simp
      simp [List.getD_eq_getElem?_getD, hget]
    · congr 1
      apply List.map_congr_left
      intro j _
      simp only [Function.comp, Nat.add_assoc, Nat.add_comm 1 j, Nat.succ_eq_add_one]

/-- The output of `create_escapes` is the concatenation, over the positions
of `s` in order, of the text emitted for each position. -/
theorem create_escapes_eq_flatten (s : Str) :
    create_escapes s = ((List.range s.length).map (emitted s)).flatten := by
  have h := create_escapes_loop_eq s []
  simpa [create_escapes] using h

end details


namespace details

theorem hexdigits_getD (d : Nat) (h : d < 16) : hexdigits.getD d 0 = upper_hex d := by
  interval_cases d <;> rfl

/-- The `else` branch of the loop body (lines 281-300). -/
theorem escape_unit_hex (c : Nat) (interior : Bool)
    (hc : (c < 0x20 ∧ c ≠ 8 ∧ c ≠ 12 ∧ c ≠ 10 ∧ c ≠ 13 ∧ c ≠ 9) ∨ 0xFF < c) :
    escape_unit c interior = backslash :: Ch 'u' :: hex4 (min c 0xFFFF) := by
  have h1 : ¬ (c = 0x20 ∨ c = 0x21 ∨ (0x23 ≤ c ∧ c ≤ 0x2E) ∨
      (0x30 ≤ c ∧ c ≤ 0x5B) ∨ (0x5D ≤ c ∧ c ≤ 0xFF)) := by omega
  have h2 : c ≠ Ch '\x08' ∧ c ≠ Ch '\x0c' ∧ c ≠ Ch '\n' ∧ c ≠ Ch '\r' ∧ c ≠ Ch '\t' ∧
      c ≠ Ch '/' ∧ c ≠ quote ∧ c ≠ backslash := by
    have e1 : Ch '\x08' = 8 := rfl
    have e2 : Ch '\x0c' = 12 := rfl
    have e3 : Ch '\n' = 10 := rfl
    have e4 : Ch '\r' = 13 := rfl
    have e5 : Ch '\t' = 9 := rfl
    have e6 : Ch '/' = 47 := rfl
    rw [e1, e2, e3, e4, e5, e6]
    simp only [quote, backslash]
    omega
  obtain ⟨a1, a2, a3, a4, a5, a6, a7, a8⟩ := h2
  simp only [escape_unit, if_neg h1, if_neg a1, if_neg a2, if_neg a3, if_neg a4, if_neg a5,
    if_neg a6, if_neg a8, a7, false_and, if_false, hex4]
  have hu : min c 0xFFFF ≤ 0xFFFF := Nat.min_le_right _ _
  generalize min c 0xFFFF = u at hu ⊢
  have d1 : u / 4096 < 16 := by omega
  have d2 : (u - u / 4096 * 4096) / 256 = u / 256 % 16 := by omega
  have d3 : (u - u / 4096 * 4096 - u / 256 % 16 * 256) / 16 = u / 16 % 16 := by omega
  have d4 : u - u / 4096 * 4096 - u / 256 % 16 * 256 - u / 16 % 16 * 16 = u % 16 := by omega
  have d1' : u / 4096 = u / 4096 % 16 := by omega
  have m : ∀ x : Nat, x % 16 < 16 := fun x => Nat.mod_lt x (by decide)
  rw [d2, d3, d4, hexdigits_getD _ d1, hexdigits_getD _ (m _), hexdigits_getD _ (m _),
    hexdigits_getD _ (m _), ← d1']

theorem escape_unit_quote (interior : Bool) :
    escape_unit quote interior = if interior then [backslash, quote] else [quote] := by
  cases interior <;> decide

theorem escape_unit_slash (interior : Bool) :
    escape_unit (Ch '/') interior = [backslash, Ch '/'] := by
  cases interior <;> decide

theorem escape_unit_backslash (interior : Bool) :
    escape_unit backslash interior = [backslash, backslash] := by
  cases interior <;> decide

/-- The text emitted for a position holds the loop body at the unit there. -/
theorem emitted_eq (s : Str) (i : Nat) (h : i < s.length) :
    emitted s i = escape_unit s[i] (i != 0 && i + 1 != s.length) := by
  simp [emitted, List.getD_eq_getElem?_getD, List.getElem?_eq_getElem h]

end details

/-- C4: the output of `create_escapes` is the concatenation of the texts
emitted for the positions of `s`, and for every position `i` the text emitted
for `s[i]` is: backslash + quote when `s[i]` is a quote and `i` is neither
the first nor the last position; the single literal quote when `s[i]` is a
quote and `i` is the first or the last position; backslash + `/` when `s[i]`
is `/`; backslash + backslash when `s[i]` is a backslash.  The 14-unit run
`"he said "hi""` is output with exactly its two interior quotes escaped. -/
theorem create_escapes_quote_slash_backslash (s : Str) (i : Nat) (h : i < s.length) :
    details.create_escapes s = ((List.range s.length).map (details.emitted s)).flatten ∧
      (s[i] = quote → i ≠ 0 → i + 1 ≠ s.length →
        details.emitted s i = [backslash, quote]) ∧
      (s[i] = quote → (i = 0 ∨ i + 1 = s.length) → details.emitted s i = [quote]) ∧
      (s[i] = Ch '/' → details.emitted s i = [backslash, Ch '/']) ∧
      (s[i] = backslash → details.emitted s i = [backslash, backslash]) ∧
      (str "\"he said \"hi\"\"").length = 14 ∧
      details.create_escapes (str "\"he said \"hi\"\"") = str "\"he said \\\"hi\\\"\"" := by
  refine ⟨details.create_escapes_eq_flatten s, ?_, ?_, ?_, ?_, by decide, by decide⟩
  · intro hq h0 h1
    rw [details.emitted_eq s i h, hq, details.escape_unit_quote]
    simp [h0, h1]
  · intro hq h01
    rw [details.emitted_eq s i h, hq, details.escape_unit_quote]
    rcases h01 with h0 | h1
    · simp [h0]
    · simp [h1]
  · intro hq
    rw [details.emitted_eq s i h, hq, details.escape_unit_slash]
  · intro hq
    rw [details.emitted_eq s i h, hq, details.escape_unit_backslash]

/-- Witness for C4: position 9 of the run `"he said "hi""` holds an interior
quote, which is emitted as backslash + quote. -/
theorem create_escapes_quote_slash_backslash_witness :
    9 < (str "\"he said \"hi\"\"").length ∧
      details.emitted (str "\"he said \"hi\"\"") 9 = [backslash, quote] :=
  ⟨by decide,
    (create_escapes_quote_slash_backslash (str "\"he said \"hi\"\"") 9 (by decide)).2.1
      (by decide) (by decide) (by decide)⟩

/-- C5: for every position whose code unit `c` is below 0x20 and is not
backspace, form-feed, newline, carriage-return or tab, or is above 0xFF,
`create_escapes` emits exactly six units: backslash, `u`, and the four
uppercase hexadecimal digits (most significant first, zero padded) of
`min(c, 0xFFFF)`. -/
theorem create_escapes_unicode_escape (s : Str) (i : Nat) (h : i < s.length)
    (hc : (s[i] < 0x20 ∧ s[i] ≠ Ch '\x08' ∧ s[i] ≠ Ch '\x0c' ∧ s[i] ≠ Ch '\n' ∧
        s[i] ≠ Ch '\r' ∧ s[i] ≠ Ch '\t') ∨ 0xFF < s[i]) :
    details.create_escapes s = ((List.range s.length).map (details.emitted s)).flatten ∧
      details.emitted s i = backslash :: Ch 'u' :: details.hex4 (min s[i] 0xFFFF) ∧
      (details.emitted s i).length = 6 := by
  have e : details.emitted s i = backslash :: Ch 'u' :: details.hex4 (min s[i] 0xFFFF) := by
    rw [details.emitted_eq s i h]
    exact details.escape_unit_hex _ _ hc
  exact ⟨details.create_escapes_eq_flatten s, e, by rw [e]; rfl⟩

/-- Witness for C5: the units 0x01 and 0x1234 in the string `a`, 0x01,
0x1234 are emitted as `\u0001` and `\u1234`. -/
theorem create_escapes_unicode_escape_witness :
    details.emitted [Ch 'a', 0x01, 0x1234] 1 = str "\\u0001" ∧
      details.emitted [Ch 'a', 0x01, 0x1234] 2 = str "\\u1234" ∧
      details.create_escapes [Ch 'a', 0x01, 0x1234] = str "a\\u0001\\u1234" :=
  ⟨((create_escapes_unicode_escape [Ch 'a', 0x01, 0x1234] 1 (by decide)
      (Or.inl (by decide))).2.1).trans (by decide),
    ((create_escapes_unicode_escape [Ch 'a', 0x01, 0x1234] 2 (by decide)
      (Or.inr (by decide))).2.1).trans (by decide),
    by decide⟩


/-! ## The writer -/

namespace details

theorem write_array_items_eq (indent : Nat) (pretty : Bool) :
    ∀ (cs : List (Str × Ptree)), cs ≠ [] →
      write_array_items cs indent pretty =
        List.intercalate (if pretty then [Ch ',', Ch '\n'] else [Ch ','])
          (cs.map (fun kc => (if pretty then spaces (4 * (indent + 1)) else [])
            ++ write_json_helper kc.2 (indent + 1) pretty))
        ++ (if pretty then [Ch '\n'] else [])
  | [], h => absurd rfl h
  | [(k, c)], _ => by
    cases pretty <;> simp [write_array_items, List.intercalate]
  | (k, c) :: kc :: rest, _ => by
    have ih := write_array_items_eq indent pretty (kc :: rest) (by simp)
    rw [write_array_items, ih]
    cases pretty <;> simp [List.intercalate]

theorem countP_empty_key (cs : List (Str × Ptree)) (hk : ∀ kc ∈ cs, kc.1 = []) :
    cs.countP (fun p => p.1 == []) = cs.length := by
  rw [List.countP_eq_length]
  intro kc hkc
  simp [hk kc hkc]

end details

/-- Counterexample to C8 as stated: the root (nesting level 0) with the
single child `1` under the empty key is printed with braces and a `:` entry,
not as the array text `[1]`. -/
theorem root_with_empty_keys_not_array :
    details.write_json_helper (Ptree.mk [] [([], Ptree.mk [Ch '1'] [])]) 0 false
        = str "\x7b:1\x7d" ∧
      details.array_text [([], Ptree.mk [Ch '1'] [])] 0 false = str "[1]" ∧
      details.write_json_helper (Ptree.mk [] [([], Ptree.mk [Ch '1'] [])]) 0 false
        ≠ details.array_text [([], Ptree.mk [Ch '1'] [])] 0 false :=
  ⟨by decide, by decide, by decide⟩

/-- C8 (amended): every node at a nesting level of at least 1 that has at
least one child and whose children all have the empty key is printed as an
array: an opening `[`, the recursively printed children in stored order
separated by commas, and a closing `]`. -/
theorem write_json_helper_array (d : Str) (cs : List (Str × Ptree)) (indent : Nat)
    (pretty : Bool) (hi : 0 < indent) (hne : cs ≠ []) (hk : ∀ kc ∈ cs, kc.1 = []) :
    details.write_json_helper (Ptree.mk d cs) indent pretty
      = details.array_text cs indent pretty := by
  have he : cs.isEmpty = false := by cases cs <;> simp at hne ⊢
  rw [details.write_json_helper, details.countP_empty_key cs hk,
    details.write_array_items_eq indent pretty cs hne, details.array_text]
  cases pretty <;> simp [hi, he]

/-- Witness for C8 (amended): the node with the children `1` and `2` under
the empty key, at nesting level 1, is printed as `[1,2]`. -/
theorem write_json_helper_array_witness :
    details.write_json_helper
        (Ptree.mk [] [([], Ptree.mk [Ch '1'] []), ([], Ptree.mk [Ch '2'] [])]) 1 false
      = str "[1,2]" :=
  (write_json_helper_array [] [([], Ptree.mk [Ch '1'] []), ([], Ptree.mk [Ch '2'] [])] 1 false
    (by decide) (by simp) (by simp)).trans (by decide)


/-- Counterexample to C9 as stated: the events of scenario A build a root
with exactly two children, but the text written by `write_json` is not the
eight lines with the unquoted keys `a` and `b`. -/
theorem scenario_A_keys_not_unquoted :
    ∃ t, build (events scenario_A) = some t ∧ t.children.length = 2 ∧
      details.write_json t ≠
        str "\x7b\n    a: 1,\n    b: [\n        true,\n        false,\n        null\n    ]\n\x7d\n" :=
  ⟨Ptree.mk []
      [(str "\"a\"", Ptree.mk (str "1") []),
       (str "\"b\"", Ptree.mk []
          [([], Ptree.mk (str "true") []), ([], Ptree.mk (str "false") []),
           ([], Ptree.mk (str "null") [])])],
    by rfl, by rfl, by decide⟩

/-- C9 (amended): the events of the document `{"a":1,"b":[true,false,null]}`
build a root with exactly two children, and `write_json` of that tree emits
exactly the eight lines `{`, `    "a": 1,`, `    "b": [`, `        true,`,
`        false,`, `        null`, `    ]`, `}`, each terminated by a
newline, the keys being printed between the quote characters they were
stored with, and a single trailing newline after the closing `}`. -/
theorem scenario_A_output :
    ∃ t, build (events scenario_A) = some t ∧ t.children.length = 2 ∧
      details.write_json t =
        str "\x7b\n    \"a\": 1,\n    \"b\": [\n        true,\n        false,\n        null\n    ]\n\x7d\n" :=
  ⟨Ptree.mk []
      [(str "\"a\"", Ptree.mk (str "1") []),
       (str "\"b\"", Ptree.mk []
          [([], Ptree.mk (str "true") []), ([], Ptree.mk (str "false") []),
           ([], Ptree.mk (str "null") [])])],
    by rfl, by rfl, by decide⟩


/-! ## The text written for a printable document -/

namespace details

theorem escape_unit_interior (c : Nat) : escape_unit c true = json_escape c := by
  by_cases h : (c < 0x20 ∧ c ≠ 8 ∧ c ≠ 12 ∧ c ≠ 10 ∧ c ≠ 13 ∧ c ≠ 9) ∨ 0xFF < c
  · rw [escape_unit_hex c true h]
    have e1 : Ch '\x08' = 8 := rfl
    have e2 : Ch '\x0c' = 12 := rfl
    have e3 : Ch '\n' = 10 := rfl
    have e4 : Ch '\r' = 13 := rfl
    have e5 : Ch '\t' = 9 := rfl
    have e6 : Ch '/' = 47 := rfl
    have a1 : c ≠ quote := by simp only [quote]; omega
    have a2 : c ≠ backslash := by simp only [backslash]; omega
    have a3 : c ≠ 47 := by omega
    have a4 : c ≠ 8 := by omega
    have a5 : c ≠ 12 := by omega
    have a6 : c ≠ 10 := by omega
    have a7 : c ≠ 13 := by omega
    have a8 : c ≠ 9 := by omega
    have a9 : ¬ (0x20 ≤ c ∧ c ≤ 0xFF) := by omega
    simp only [json_escape, e1, e2, e3, e4, e5, e6, if_neg a1, if_neg a2, if_neg a3, if_neg a4,
      if_neg a5, if_neg a6, if_neg a7, if_neg a8, if_neg a9]
  · have hlt : c < 256 := by omega
    interval_cases c <;> rfl

theorem create_escapes_loop_content (s : Str) :
    create_escapes_loop false (s ++ [quote]) = json_content s ++ [quote] := by
  induction s with
  | nil => decide
  | cons c s ih =>
    have he : (s ++ [quote]).isEmpty = false := by cases s <;> rfl
    rw [List.cons_append, create_escapes_loop, ih, he]
    simp [json_content, escape_unit_interior]

/-- A stored string payload (content between two quotes) is written as the
JSON string literal of its content. -/
theorem create_escapes_quoted (s : Str) : create_escapes (quoted s) = json_string s := by
  rw [create_escapes, quoted, create_escapes_loop, create_escapes_loop_content]
  rfl

theorem escape_unit_number_char (c : Nat) (interior : Bool) (h : number_char c = true) :
    escape_unit c interior = [c] := by
  have e0 : Ch '0' = 48 := rfl
  have e9 : Ch '9' = 57 := rfl
  have e1 : Ch '+' = 43 := rfl
  have e2 : Ch '-' = 45 := rfl
  have e3 : Ch '.' = 46 := rfl
  have e4 : Ch 'e' = 101 := rfl
  have e5 : Ch 'E' = 69 := rfl
  simp only [number_char, e0, e9, e1, e2, e3, e4, e5, Bool.or_eq_true, Bool.and_eq_true,
    decide_eq_true_eq, beq_iff_eq] at h
  have h1 : c = 0x20 ∨ c = 0x21 ∨ (0x23 ≤ c ∧ c ≤ 0x2E) ∨
      (0x30 ≤ c ∧ c ≤ 0x5B) ∨ (0x5D ≤ c ∧ c ≤ 0xFF) := by omega
  simp only [escape_unit, if_pos h1]

theorem create_escapes_loop_number (t : Str) (h : t.all number_char = true) :
    ∀ b, create_escapes_loop b t = t := by
  induction t with
  | nil => intro b; rfl
  | cons c t ih =>
    intro b
    simp only [List.all_cons, Bool.and_eq_true] at h
    rw [create_escapes_loop, escape_unit_number_char c _ h.1, ih h.2]
    rfl

theorem tree_elems_ne_nil : ∀ es : List Value, es.isEmpty = false → (tree_elems es).isEmpty = false
  | [], h => by simp at h
  | _ :: _, _ => by simp [tree_elems]

theorem tree_members_ne_nil :
    ∀ ms : List (List Chunk × Value), ms.isEmpty = false → (tree_members ms).isEmpty = false
  | [], h => by simp at h
  | (_, _) :: _, _ => by simp [tree_members]

theorem countP_tree_elems : ∀ es : List Value,
    (tree_elems es).countP (fun p => p.1 == []) = (tree_elems es).length
  | [] => rfl
  | v :: vs => by
    simp only [tree_elems, List.countP_cons, countP_tree_elems vs, List.length_cons]
    simp

theorem countP_tree_members : ∀ ms : List (List Chunk × Value),
    (tree_members ms).countP (fun p => p.1 == []) = 0
  | [] => rfl
  | (k, v) :: ms => by
    simp only [tree_members, List.countP_cons, countP_tree_members ms]
    simp [quoted]

end details
namespace details

theorem tree_elems_isEmpty : ∀ es : List Value, (tree_elems es).isEmpty = es.isEmpty
  | [] => rfl
  | _ :: _ => by simp [tree_elems]

theorem tree_members_isEmpty :
    ∀ ms : List (List Chunk × Value), (tree_members ms).isEmpty = ms.isEmpty
  | [] => rfl
  | (_, _) :: _ => by simp [tree_members]

theorem write_json_helper_leaf (d : Str) (n : Nat) (pretty : Bool) :
    write_json_helper (Ptree.mk d []) (n + 1) pretty = create_escapes d := by
  simp [write_json_helper]

mutual
/-- Below the top level, the writer prints the reference tree of a value as
the JSON text of the value. -/
theorem write_nested : ∀ (v : Value) (n : Nat), v.nested_ok = true →
    write_json_helper (tree v) (n + 1) true = json_text v (n + 1)
  | Value.null, n, _ => by
    rw [tree, write_json_helper_leaf, json_text]
    decide
  | Value.boolean b, n, _ => by
    rw [tree, write_json_helper_leaf, json_text]
    cases b <;> decide
  | Value.number t bulk, n, h => by
    simp only [Value.nested_ok, Bool.and_eq_true] at h
    rw [tree, write_json_helper_leaf, json_text, create_escapes,
      create_escapes_loop_number t h.2]
  | Value.string cs, n, _ => by
    rw [tree, write_json_helper_leaf, json_text, create_escapes_quoted]
  | Value.array es, n, h => by
    simp only [Value.nested_ok, Bool.and_eq_true, Bool.not_eq_true'] at h
    have he := tree_elems_isEmpty es
    rw [h.1] at he
    rw [tree, write_json_helper, json_text, he, countP_tree_elems,
      write_elems es (n + 1) h.2]
    simp
  | Value.object ms, n, h => by
    simp only [Value.nested_ok, Bool.and_eq_true, Bool.not_eq_true'] at h
    have he := tree_members_isEmpty ms
    rw [h.1] at he
    have hl : ((0 : Nat) == (tree_members ms).length) = false := by
      have : (tree_members ms).length ≠ 0 := by
        intro h0
        rw [List.length_eq_zero] at h0
        simp [h0] at he
      simpa using fun h0 => this h0.symm
    rw [tree, write_json_helper, json_text, he, countP_tree_members, hl,
      write_members ms (n + 1) h.2]
    simp
theorem write_elems : ∀ (es : List Value) (n : Nat), elems_ok es = true →
    write_array_items (tree_elems es) n true = json_elems es (n + 1)
  | [], n, _ => by simp [tree_elems, write_array_items, json_elems]
  | v :: vs, n, h => by
    simp only [elems_ok, Bool.and_eq_true] at h
    rw [tree_elems, write_array_items, json_elems, write_nested v n h.1, write_elems vs n h.2,
      tree_elems_isEmpty]
    cases vs <;> simp
theorem write_members : ∀ (ms : List (List Chunk × Value)) (n : Nat), members_ok ms = true →
    write_object_items (tree_members ms) n true = json_members ms (n + 1)
  | [], n, _ => by simp [tree_members, write_object_items, json_members]
  | (k, v) :: ms, n, h => by
    simp only [members_ok, Bool.and_eq_true] at h
    rw [tree_members, write_object_items, json_members, write_nested v n h.1,
      write_members ms n h.2, tree_members_isEmpty, create_escapes_quoted]
    cases ms <;> simp
end

end details

theorem noMixed_tree (v : Value) : NoMixed (tree v) := by
  obtain ⟨cb, h, hr, _⟩ := runs_value v _ _ _ _ resolved_fresh
  have hg : NoMixed cb.root := runs_last h
  rw [hr] at hg
  simpa using hg

/-- The text written for the tree of a printable document is its JSON text
followed by one newline. -/
theorem write_json_printable (v : Value) (h : v.printable = true) :
    details.write_json (tree v) = json_text v 0 ++ [Ch '\n'] := by
  cases v with
  | object ms =>
    have hv : details.verify_json (tree (Value.object ms)) 0 = true :=
      (details.verify_json_iff _ 0).2 ⟨fun _ => by simp [tree, Ptree.data], noMixed_tree _⟩
    simp only [Value.printable] at h
    rw [details.write_json, hv, tree, details.write_json_helper, json_text,
      details.write_members ms 0 h]
    simp
  | _ => simp [Value.printable] at h
/-- The tree built from the events of a value is its reference tree. -/
theorem build_events (v : Value) : build (events v) = some (tree v) := by
  obtain ⟨cb, h, ht, _⟩ := fresh_run_builds_tree v
  simp [build, h, ht]

/-- Counterexample to C10 as stated: the scalar documents `null` and `true`
build different trees, `write_json` writes the empty text for both, so no
way of reading the output back reproduces the tree of every well-formed
document.  Moreover the top-level array `[null]` is written with braces and
an entry without a key, and the empty array in `{"a":[]}` is written as
nothing at all, neither of which is JSON text. -/
theorem round_trip_fails_for_scalar_documents :
    (build (events Value.null) = some (Ptree.mk (str "null") []) ∧
      build (events (Value.boolean true)) = some (Ptree.mk (str "true") []) ∧
      details.write_json (Ptree.mk (str "null") []) = [] ∧
      details.write_json (Ptree.mk (str "true") []) = []) ∧
    (¬ ∃ reread : Str → Option Ptree,
      ∀ v : Value, ∃ t, build (events v) = some t ∧ reread (details.write_json t) = some t) ∧
    (∃ t, build (events (Value.array [Value.null])) = some t ∧
      details.write_json t = str "\x7b\n    : null\n\x7d\n") ∧
    (∃ t, build (events (Value.object [([Chunk.unit (Ch 'a')], Value.array [])])) = some t ∧
      details.write_json t = str "\x7b\n    \"a\": \n\x7d\n") := by
  refine ⟨⟨by rfl, by rfl, by decide, by decide⟩, ?_, ⟨_, by rfl, by decide⟩,
    ⟨_, by rfl, by decide⟩⟩
  rintro ⟨reread, h⟩
  obtain ⟨t1, hb1, hr1⟩ := h Value.null
  obtain ⟨t2, hb2, hr2⟩ := h (Value.boolean true)
  rw [build_events] at hb1 hb2
  simp only [Option.some.injEq] at hb1 hb2
  subst hb1
  subst hb2
  have e1 : details.write_json (tree Value.null) = [] := by decide
  have e2 : details.write_json (tree (Value.boolean true)) = [] := by decide
  rw [e1] at hr1
  rw [e2, hr1] at hr2
  simp only [Option.some.injEq] at hr2
  have hd := congrArg Ptree.data hr2
  revert hd
  decide

/-- C10 (amended): for every well-formed document `d` whose top-level value
is an object, in which every nested array or object is non-empty and every
number text is a non-empty run of number characters, `write_json` of the
built tree emits exactly the pretty-printed JSON text of `d` (string and key
contents escaped between quotes; number, `true`, `false` and `null` texts
verbatim) followed by one newline; hence tokenizing that output with a
tokenizer that reads this JSON text as the events of `d` and building again
yields a tree equal to the first one. -/
theorem round_trip_printable (tokenize : Str → Option (List Event)) (v : Value)
    (hp : v.printable = true)
    (htok : ∃ v', tokenize (json_text v 0 ++ [Ch '\n']) = some (events v') ∧
      tree v' = tree v) :
    ∃ t, build (events v) = some t ∧
      details.write_json t = json_text v 0 ++ [Ch '\n'] ∧
      (tokenize (details.write_json t)).bind build = some t := by
  obtain ⟨v', h1, h2⟩ := htok
  refine ⟨tree v, build_events v, write_json_printable v hp, ?_⟩
  rw [write_json_printable v hp, h1, Option.some_bind, build_events, h2]

/-- Witness for C10 (amended): the document `{"n":007,"s":"a/b","l":[null]}`
is written as six lines of JSON text in which the number text `007` is kept
verbatim. -/
theorem round_trip_printable_witness :
    scenario_round_trip.printable = true ∧
      json_text scenario_round_trip 0 ++ [Ch '\n'] =
        str "\x7b\n    \"n\": 007,\n    \"s\": \"a\\/b\",\n    \"l\": [\n        null\n    ]\n\x7d\n" ∧
      ∃ t, build (events scenario_round_trip) = some t ∧
        details.write_json t = json_text scenario_round_trip 0 ++ [Ch '\n'] ∧
        (some (events scenario_round_trip)).bind build = some t :=
  ⟨by decide, by decide,
    round_trip_printable (fun _ => some (events scenario_round_trip)) scenario_round_trip
      (by decide) ⟨scenario_round_trip, rfl, rfl⟩⟩


/-! ## The lines of a printed container -/

namespace details

theorem write_array_items_lines (n : Nat) (pretty : Bool) (rest : List (Str × Ptree)) :
    ∀ pre : List (Str × Ptree), write_array_items rest n pretty =
      ((List.range rest.length).map
        (fun j => child_line pretty false (pre ++ rest) n (pre.length + j))).flatten := by
  induction rest with
  | nil => intro pre; simp [write_array_items]
  | cons kc r ih =>
    intro pre
    obtain ⟨k, c⟩ := kc
    have h := ih (pre ++ [(k, c)])
    simp only [List.append_assoc, List.singleton_append, List.length_append,
      List.length_singleton] at h
    rw [write_array_items, h, List.length_cons, List.range_succ_eq_map, List.map_cons,
      List.flatten_cons, List.map_map]
    have hget : (pre ++ (k, c) :: r)[pre.length + 0]? = some (k, c) := by
      rw [Nat.add_zero, List.getElem?_append_right (Nat.le_refl _)]
      simp
    have hlast : (!r.isEmpty) = decide (pre.length + 0 + 1 < (pre ++ (k, c) :: r).length) := by
      cases r <;> simp
    congr 1
    · simp only [child_line, hget, hlast]
      cases pretty <;> simp
    · congr 1
      apply List.map_congr_left
      intro j _
      simp only [Function.comp, Nat.add_assoc, Nat.add_comm 1 j, Nat.succ_eq_add_one]

theorem write_object_items_lines (n : Nat) (pretty : Bool) (rest : List (Str × Ptree)) :
    ∀ pre : List (Str × Ptree), write_object_items rest n pretty =
      ((List.range rest.length).map
        (fun j => child_line pretty true (pre ++ rest) n (pre.length + j))).flatten := by
  induction rest with
  | nil => intro pre; simp [write_object_items]
  | cons kc r ih =>
    intro pre
    obtain ⟨k, c⟩ := kc
    have h := ih (pre ++ [(k, c)])
    simp only [List.append_assoc, List.singleton_append, List.length_append,
      List.length_singleton] at h
    rw [write_object_items, h, List.length_cons, List.range_succ_eq_map, List.map_cons,
      List.flatten_cons, List.map_map]
    have hget : (pre ++ (k, c) :: r)[pre.length + 0]? = some (k, c) := by
      rw [Nat.add_zero, List.getElem?_append_right (Nat.le_refl _)]
      simp
    have hlast : (!r.isEmpty) = decide (pre.length + 0 + 1 < (pre ++ (k, c) :: r).length) := by
      cases r <;> simp
    congr 1
    · simp only [child_line, hget, hlast]
      cases pretty <;> simp
    · congr 1
      apply List.map_congr_left
      intro j _
      simp only [Function.comp, Nat.add_assoc, Nat.add_comm 1 j, Nat.succ_eq_add_one]

theorem write_array_items_eq_child_lines (cs : List (Str × Ptree)) (n : Nat) (pretty : Bool) :
    write_array_items cs n pretty = child_lines pretty false cs n := by
  simpa [child_lines] using write_array_items_lines n pretty cs []

theorem write_object_items_eq_child_lines (cs : List (Str × Ptree)) (n : Nat) (pretty : Bool) :
    write_object_items cs n pretty = child_lines pretty true cs n := by
  simpa [child_lines] using write_object_items_lines n pretty cs []

end details


/-- C15: in pretty mode, a node printed as an array or as an object at nesting
level `n` with at least one child is written as the opening bracket, a
newline, then for each child in stored order one line made of `4 * (n + 1)`
spaces, for an object only the escaped key followed by a colon and one space,
the output of the child at level `n + 1`, a comma if and only if the child is
not the last one, and a newline; then `4 * n` spaces and the matching closing
bracket.  A node is printed as an array when `n > 0` and all keys are empty,
as an object when `n = 0` or some key is not empty. -/
theorem pretty_container_layout (d : Str) (cs : List (Str × Ptree)) (n : Nat)
    (hne : cs ≠ []) :
    (0 < n → (∀ kc ∈ cs, kc.1 = []) →
      details.write_json_helper (Ptree.mk d cs) n true =
        [Ch '[', Ch '\n'] ++ details.child_lines true false cs n
          ++ details.spaces (4 * n) ++ [Ch ']']) ∧
    ((n = 0 ∨ ∃ kc ∈ cs, kc.1 ≠ []) →
      details.write_json_helper (Ptree.mk d cs) n true =
        [Ch '\x7b', Ch '\n'] ++ details.child_lines true true cs n
          ++ details.spaces (4 * n) ++ [Ch '\x7d']) ∧
    (∀ (object : Bool) (i : Nat) (k : Str) (c : Ptree), cs[i]? = some (k, c) →
      details.child_line true object cs n i =
        details.spaces (4 * (n + 1))
          ++ (if object then details.create_escapes k ++ [Ch ':', Ch ' '] else [])
          ++ details.write_json_helper c (n + 1) true
          ++ (if i + 1 < cs.length then [Ch ','] else []) ++ [Ch '\n']) := by
  have he : cs.isEmpty = false := by cases cs <;> simp at hne ⊢
  refine ⟨?_, ?_, ?_⟩
  · intro hn hk
    rw [details.write_json_helper, details.countP_empty_key cs hk,
      details.write_array_items_eq_child_lines]
    simp [hn, he]
  · intro h
    have hb : (decide (n > 0) &&
        (cs.countP (fun p => p.1 == []) == cs.length)) = false := by
      rcases h with h0 | ⟨kc, hkc, hk⟩
      · simp [h0]
      · have hc : cs.countP (fun p => p.1 == []) ≠ cs.length := by
          intro heq
          rw [List.countP_eq_length] at heq
          exact hk (by simpa using heq kc hkc)
        have hc' : (cs.countP (fun p => p.1 == []) == cs.length) = false := by
          simpa using hc
        rw [hc', Bool.and_false]
    rw [details.write_json_helper, details.write_object_items_eq_child_lines, he, hb]
    simp
  · intro object i k c hi
    cases object <;> simp [details.child_line, hi]

/-- Witness for C15: the array with the children `1` and `2`, printed at
nesting level 1, is written on four lines. -/
theorem pretty_container_layout_witness :
    details.write_json_helper
        (Ptree.mk [] [([], Ptree.mk [Ch '1'] []), ([], Ptree.mk [Ch '2'] [])]) 1 true
      = str "[\n        1,\n        2\n    ]" :=
  ((pretty_container_layout [] [([], Ptree.mk [Ch '1'] []), ([], Ptree.mk [Ch '2'] [])] 1
    (by simp)).1 (by decide) (by simp)).trans (by decide)

/-- C18: for every tree and both values of `pretty`, `write_json_helper` at
nesting level 0 takes the object branch: the output is an opening brace, the
entries of all children (key, colon, value) and a closing brace, so it begins
with `{` and ends with `}` whatever the children are.  A root with no
children is printed as an empty pair of braces, and for a child stored under
the empty key the entry is a bare colon followed by the value. -/
theorem root_takes_object_branch (d : Str) (cs : List (Str × Ptree)) (pretty : Bool) :
    details.write_json_helper (Ptree.mk d cs) 0 pretty =
        [Ch '\x7b'] ++ (if pretty then [Ch '\n'] else [])
          ++ details.child_lines pretty true cs 0 ++ [Ch '\x7d'] ∧
      (details.write_json_helper (Ptree.mk d cs) 0 pretty).head? = some (Ch '\x7b') ∧
      (details.write_json_helper (Ptree.mk d cs) 0 pretty).getLast? = some (Ch '\x7d') ∧
      (cs = [] → details.write_json_helper (Ptree.mk d cs) 0 pretty =
        if pretty then str "\x7b\n\x7d" else str "\x7b\x7d") ∧
      (∀ (i : Nat) (c : Ptree), cs[i]? = some ([], c) →
        details.child_line pretty true cs 0 i =
          (if pretty then details.spaces 4 else []) ++ [Ch ':']
            ++ (if pretty then [Ch ' '] else [])
            ++ details.write_json_helper c 1 pretty
            ++ (if i + 1 < cs.length then [Ch ','] else [])
            ++ (if pretty then [Ch '\n'] else [])) := by
  have h : details.write_json_helper (Ptree.mk d cs) 0 pretty =
      [Ch '\x7b'] ++ (if pretty then [Ch '\n'] else [])
        ++ details.child_lines pretty true cs 0 ++ [Ch '\x7d'] := by
    rw [details.write_json_helper, details.write_object_items_eq_child_lines]
    cases pretty <;> simp [details.spaces]
  refine ⟨h, ?_, ?_, ?_, ?_⟩
  · rw [h]; simp
  · rw [h, List.getLast?_append]
    simp
  · intro hcs
    subst hcs
    rw [h]
    cases pretty <;> decide
  · intro i c hi
    have e : details.create_escapes [] = [] := rfl
    cases pretty <;> simp [details.child_line, hi, e]

/-- Witness for C18: a root whose only child is `1` under the empty key (a
top-level array) is written with braces and one entry made of a colon and the
value. -/
theorem root_takes_object_branch_witness :
    details.write_json_helper (Ptree.mk [] [([], Ptree.mk [Ch '1'] [])]) 0 false
      = str "\x7b:1\x7d" :=
  ((root_takes_object_branch [] [([], Ptree.mk [Ch '1'] [])] false).1).trans (by decide)


/-- Counterexample to C12 as stated: for the whole document `[]` (the events
`on_begin_array`, `on_end_array`) the node built is the root, it has no
children and an empty payload, but the writer's output for it is a pair of
braces, not the empty text. -/
theorem empty_array_document_prints_braces :
    ∃ t, build [Event.on_begin_array, Event.on_end_array] = some t ∧
      t.children = [] ∧ t.data = [] ∧
      details.write_json_helper t 0 true = str "\x7b\n\x7d" ∧
      details.write_json_helper t 0 true ≠ [] ∧
      details.write_json t = str "\x7b\n\x7d\n" :=
  ⟨Ptree.mk [] [], by rfl, by rfl, by rfl, by decide, by decide, by decide⟩

/-- Counterexample to C13 as stated: after `on_begin_array` the top frame is
an array frame; a bulk `on_code_units` with the text `ab` is accepted, but no
child is appended and the text lands in the array node's own payload. -/
theorem bulk_code_units_writes_array_payload :
    ∃ cb, run [Event.on_begin_array, Event.on_code_units (str "ab")]
        standard_callbacks.fresh = some cb ∧
      cb.stack = [⟨kind.array, []⟩] ∧ cb.root.children = [] ∧ cb.root.data = str "ab" :=
  ⟨⟨Ptree.mk (str "ab") [], [], [⟨kind.array, []⟩]⟩, by rfl, by rfl, by rfl, by rfl⟩

/-- C13 (amended): `on_code_units(text)` resolves no value slot, it appends
`text` to the string `current_value()` designates, which for an array frame on
top is the array node's own payload.  A string production delivered as
`on_begin_string`, `on_code_units(text)`, `on_end_string` while the top frame
is an array frame appends a new child with the empty key whose payload is
`text` between two quote characters, and the array node's own payload stays
as it was. -/
theorem code_units_at_array_frame (cb : standard_callbacks) (p : Path) (base : List layer)
    (d : Str) (cs : List (Str × Ptree)) (text : Str)
    (hst : cb.stack = ⟨kind.array, p⟩ :: base)
    (hp : cb.root.get? p = some (Ptree.mk d cs)) :
    step cb (Event.on_code_units text) =
        some { cb with root := Ptree.put (Ptree.mk (d ++ text) cs) cb.root p } ∧
      run [Event.on_begin_string, Event.on_code_units text, Event.on_end_string] cb =
        some ⟨Ptree.put (Ptree.mk d (cs ++ [([], Ptree.mk (quoted text) [])])) cb.root p,
          cb.key_buffer, ⟨kind.leaf, p ++ [cs.length]⟩ :: ⟨kind.array, p⟩ :: base⟩ := by
  obtain ⟨root, kb, stack⟩ := cb
  simp only at hst hp
  subst hst
  constructor
  · simp [step, standard_callbacks.on_code_units, standard_callbacks.current_value,
      standard_callbacks.update, Ptree.modify_eq_put _ p root _ hp, Ptree.map_data]
  · have hv : standard_callbacks.new_value_aux root kb (⟨kind.array, p⟩ :: base) = _ :=
      standard_callbacks.new_value_aux_at (Or.inl rfl)
        (Or.inl rfl : TopIs (⟨kind.array, p⟩ :: base) ⟨kind.array, p⟩ base) hp
    have hA : ∀ s : Str,
        (Ptree.put (Ptree.mk d (cs ++ [([], Ptree.mk s [])])) root p).get? (p ++ [cs.length])
          = some (Ptree.mk s []) := fun s => Ptree.get?_new_child _ _ _ _ hp
    have hB : ∀ s s' : Str,
        Ptree.put (Ptree.mk s' []) (Ptree.put (Ptree.mk d (cs ++ [([], Ptree.mk s [])])) root p)
          (p ++ [cs.length]) = Ptree.put (Ptree.mk d (cs ++ [([], Ptree.mk s' [])])) root p :=
      fun s s' => Ptree.put_new_child _ _ _ _ _ hp
    have h1 : step ⟨root, kb, ⟨kind.array, p⟩ :: base⟩ Event.on_begin_string =
        some ⟨Ptree.put (Ptree.mk d (cs ++ [([], Ptree.mk [quote] [])])) root p, kb,
          ⟨kind.leaf, p ++ [cs.length]⟩ :: ⟨kind.array, p⟩ :: base⟩ := by
      have hA0 := hA []
      simp only [step, standard_callbacks.on_begin_string, standard_callbacks.new_value, hv,
        slot_key, slot_kind, if_neg (by decide : ¬ kind.array = kind.key), Ptree.empty,
        standard_callbacks.current_value, standard_callbacks.update,
        Ptree.modify_eq_put _ _ _ _ hA0, Ptree.map_data, hB]
      rfl
    have h2 : step ⟨Ptree.put (Ptree.mk d (cs ++ [([], Ptree.mk [quote] [])])) root p, kb,
          ⟨kind.leaf, p ++ [cs.length]⟩ :: ⟨kind.array, p⟩ :: base⟩ (Event.on_code_units text) = _ :=
      step_append_leaf (rfl : (Event.on_code_units text).appended = some text) (hA [quote])
    have h3 : step ⟨Ptree.put (Ptree.mk d (cs ++ [([], Ptree.mk ([quote] ++ text) [])])) root p, kb,
          ⟨kind.leaf, p ++ [cs.length]⟩ :: ⟨kind.array, p⟩ :: base⟩ Event.on_end_string = _ :=
      step_append_leaf (rfl : Event.on_end_string.appended = some [quote]) (hA ([quote] ++ text))
    rw [hB] at h2 h3
    simp only [run, h1, h2, h3]
    rfl

/-- Witness for C13 (amended): after `on_begin_array` on a fresh builder, a
bulk `on_code_units` writes into the root's payload, while the full string
production appends the child `"ab"` under the empty key. -/
theorem code_units_at_array_frame_witness :
    step ⟨Ptree.mk [] [], [], [⟨kind.array, []⟩]⟩ (Event.on_code_units (str "ab")) =
        some ⟨Ptree.mk (str "ab") [], [], [⟨kind.array, []⟩]⟩ ∧
      run [Event.on_begin_string, Event.on_code_units (str "ab"), Event.on_end_string]
          ⟨Ptree.mk [] [], [], [⟨kind.array, []⟩]⟩ =
        some ⟨Ptree.mk [] [([], Ptree.mk (str "\"ab\"") [])], [],
          [⟨kind.leaf, [0]⟩, ⟨kind.array, []⟩]⟩ :=
  code_units_at_array_frame ⟨Ptree.mk [] [], [], [⟨kind.array, []⟩]⟩ [] [] [] [] (str "ab")
    rfl rfl

/-- C17: for every well-formed document whose top-level value is an array or
an object, the tree built from its events passes `verify_json` at depth 0 and
`write_json` emits a non-empty text for it; for every well-formed document
that is a single scalar (null, a boolean, a string, or a number, whose text
has at least one digit) the built tree fails `verify_json` and `write_json`
emits nothing. -/
theorem verify_passes_iff_container_document (v : Value) :
    (v.is_container = true →
      ∃ t, build (events v) = some t ∧ details.verify_json t 0 = true ∧
        details.write_json t ≠ []) ∧
    (v.is_container = false → (∀ t b, v = Value.number t b → t ≠ []) →
      ∃ t, build (events v) = some t ∧ details.verify_json t 0 = false ∧
        details.write_json t = []) := by
  have hc : ∀ cs, details.verify_json (Ptree.mk [] cs) 0 = true →
      details.write_json (Ptree.mk [] cs) ≠ [] := by
    intro cs hv
    simp [details.write_json, hv]
  have hs : ∀ text : Str, text ≠ [] →
      details.verify_json (Ptree.mk text []) 0 = false ∧
        details.write_json (Ptree.mk text []) = [] := by
    intro text ht
    have hv : details.verify_json (Ptree.mk text []) 0 = false := by
      cases text with
      | nil => exact absurd rfl ht
      | cons c r => simp [details.verify_json]
    exact ⟨hv, by simp [details.write_json, hv]⟩
  have hn := noMixed_tree v
  constructor
  · intro h
    refine ⟨tree v, build_events v, ?_⟩
    have hv : details.verify_json (tree v) 0 = true := by
      rw [details.verify_json_iff]
      refine ⟨fun _ => ?_, hn⟩
      cases v <;> simp [Value.is_container] at h <;> simp [tree, Ptree.data]
    refine ⟨hv, ?_⟩
    cases v <;> simp [Value.is_container] at h
    · exact hc _ (by simpa [tree] using hv)
    · exact hc _ (by simpa [tree] using hv)
  · intro h hnum
    refine ⟨tree v, build_events v, ?_⟩
    cases v with
    | null => exact hs _ (by decide)
    | boolean b => cases b <;> exact hs _ (by decide)
    | number t b => exact hs t (hnum t b rfl)
    | string cs => exact hs _ (by simp [quoted])
    | array es => simp [Value.is_container] at h
    | object ms => simp [Value.is_container] at h

/-- Witness for C17: the array document `[null]` passes verification and is
written as a non-empty text; the scalar document `null` fails verification
and nothing is written. -/
theorem verify_passes_iff_container_document_witness :
    (∃ t, build (events (Value.array [Value.null])) = some t ∧
      details.verify_json t 0 = true ∧ details.write_json t ≠ []) ∧
    (∃ t, build (events Value.null) = some t ∧
      details.verify_json t 0 = false ∧ details.write_json t = []) :=
  ⟨(verify_passes_iff_container_document (Value.array [Value.null])).1 rfl,
    (verify_passes_iff_container_document Value.null).2 rfl (fun _ _ h => by cases h)⟩


/-! ## Units copied unchanged by the escaper -/

namespace details

theorem escape_unit_copied_or_longer (c : Nat) (interior : Bool) :
    (copied c interior = true ∧ escape_unit c interior = [c]) ∨
      (copied c interior = false ∧ 2 ≤ (escape_unit c interior).length) := by
  by_cases h : c < 256
  · interval_cases c <;> cases interior <;> decide
  · right
    have hc : copied c interior = false := by
      simp only [copied, Bool.and_eq_false_iff, decide_eq_false_iff_not]
      left; left; left; right
      omega
    refine ⟨hc, ?_⟩
    rw [escape_unit_hex c interior (Or.inr (by omega))]
    simp [hex4]

theorem escape_unit_of_copied {c : Nat} {interior : Bool} (h : copied c interior = true) :
    escape_unit c interior = [c] := by
  rcases escape_unit_copied_or_longer c interior with h1 | h1
  · exact h1.2
  · rw [h1.1] at h; cases h

theorem create_escapes_loop_length (rest : Str) :
    ∀ b : Bool, rest.length ≤ (create_escapes_loop b rest).length := by
  induction rest with
  | nil => intro b; simp
  | cons c r ih =>
    intro b
    rw [create_escapes_loop, List.length_append, List.length_cons]
    have h1 := ih false
    rcases escape_unit_copied_or_longer c (!b && !r.isEmpty) with h | h
    · rw [h.2]; simp; omega
    · omega

theorem create_escapes_loop_cons_eq (c : Nat) (r : Str) (b : Bool) :
    create_escapes_loop b (c :: r) = c :: r ↔
      copied c (!b && !r.isEmpty) = true ∧ create_escapes_loop false r = r := by
  rw [create_escapes_loop]
  constructor
  · intro h
    have hl := congrArg List.length h
    rw [List.length_append, List.length_cons] at hl
    have h1 := create_escapes_loop_length r false
    rcases escape_unit_copied_or_longer c (!b && !r.isEmpty) with h2 | h2
    · rw [h2.2] at h
      exact ⟨h2.1, by simpa using h⟩
    · omega
  · rintro ⟨h1, h2⟩
    rw [escape_unit_of_copied h1, h2]
    rfl

theorem create_escapes_loop_eq_self_iff (rest : Str) :
    ∀ pre : Str, create_escapes_loop pre.isEmpty rest = rest ↔
      ∀ (j : Nat) (h : j < rest.length),
        copied rest[j] (pre.length + j != 0 && pre.length + j + 1 != pre.length + rest.length)
          = true := by
  induction rest with
  | nil => intro pre; simp [create_escapes_loop]
  | cons c r ih =>
    intro pre
    have h := ih (pre ++ [c])
    have he : (pre ++ [c]).isEmpty = false := by cases pre <;> rfl
    rw [he] at h
    rw [create_escapes_loop_cons_eq, h]
    have hflag : (!pre.isEmpty && !r.isEmpty) =
        (pre.length + 0 != 0 && pre.length + 0 + 1 != pre.length + (c :: r).length) := by
      cases pre <;> cases r <;> simp
    constructor
    · rintro ⟨h0, hr⟩ j hj
      cases j with
      | zero => simpa [hflag] using h0
      | succ j =>
        have := hr j (by simpa using hj)
        simpa [Nat.add_assoc, Nat.add_comm 1 j, Nat.add_comm 1 r.length] using this
    · intro hall
      refine ⟨?_, ?_⟩
      · have := hall 0 (by simp)
        simpa [hflag] using this
      · intro j hj
        have := hall (j + 1) (by simpa using hj)
        simpa [Nat.add_assoc, Nat.add_comm 1 j, Nat.add_comm 1 r.length] using this

theorem copied_iff (c : Nat) (interior : Bool) :
    copied c interior = true ↔
      0x20 ≤ c ∧ c ≤ 0xFF ∧ c ≠ Ch '/' ∧ c ≠ backslash ∧ (c = quote → interior = false) := by
  simp only [copied, Bool.and_eq_true, Bool.or_eq_true, decide_eq_true_eq, bne_iff_ne, ne_eq,
    Bool.not_eq_true']
  constructor
  · rintro ⟨⟨⟨⟨h1, h2⟩, h3⟩, h4⟩, h5⟩
    exact ⟨h1, h2, h3, h4, fun hq => by rcases h5 with h5 | h5; exact absurd hq h5; exact h5⟩
  · rintro ⟨h1, h2, h3, h4, h5⟩
    refine ⟨⟨⟨⟨h1, h2⟩, h3⟩, h4⟩, ?_⟩
    by_cases hq : c = quote
    · exact Or.inr (h5 hq)
    · exact Or.inl hq

end details

/-- C16: `create_escapes` copies unchanged every code unit in the range
0x20..0xFF other than the quote, `/` and backslash characters; and for every
string `s`, `create_escapes(s) = s` if and only if every unit of `s` lies in
0x20..0xFF, none is `/` or backslash, and a quote character occurs only at
the first or the last position of `s`. -/
theorem create_escapes_identity_iff (s : Str) :
    (∀ (i : Nat) (h : i < s.length), 0x20 ≤ s[i] → s[i] ≤ 0xFF → s[i] ≠ quote →
        s[i] ≠ Ch '/' → s[i] ≠ backslash → details.emitted s i = [s[i]]) ∧
      (details.create_escapes s = s ↔
        ∀ (i : Nat) (h : i < s.length), 0x20 ≤ s[i] ∧ s[i] ≤ 0xFF ∧ s[i] ≠ Ch '/' ∧
          s[i] ≠ backslash ∧ (s[i] = quote → i = 0 ∨ i + 1 = s.length)) := by
  constructor
  · intro i h h1 h2 h3 h4 h5
    rw [details.emitted_eq s i h]
    exact details.escape_unit_of_copied
      ((details.copied_iff _ _).2 ⟨h1, h2, h4, h5, fun hq => absurd hq h3⟩)
  · have h := details.create_escapes_loop_eq_self_iff s []
    simp only [List.isEmpty_nil, List.length_nil, Nat.zero_add] at h
    rw [details.create_escapes, h]
    constructor
    · intro hall i hi
      obtain ⟨h1, h2, h3, h4, h5⟩ := (details.copied_iff _ _).1 (hall i hi)
      refine ⟨h1, h2, h3, h4, fun hq => ?_⟩
      have := h5 hq
      simp only [Bool.and_eq_false_iff, bne_eq_false_iff_eq] at this
      exact this
    · intro hall i hi
      obtain ⟨h1, h2, h3, h4, h5⟩ := hall i hi
      refine (details.copied_iff _ _).2 ⟨h1, h2, h3, h4, fun hq => ?_⟩
      simp only [Bool.and_eq_false_iff, bne_eq_false_iff_eq]
      exact h5 hq

/-- Witness for C16: the stored string `"ab"` is written unchanged, the run
`a/b` is not. -/
theorem create_escapes_identity_iff_witness :
    details.create_escapes (str "\"ab\"") = str "\"ab\"" ∧
      details.create_escapes (str "a/b") ≠ str "a/b" :=
  ⟨(create_escapes_identity_iff (str "\"ab\"")).2.2 (by decide), by decide⟩


/-! ## The keys of a built tree -/

theorem get?_all_mk (P : Ptree → Prop) (d : Str) (cs : List (Str × Ptree)) :
    (∀ p n, (Ptree.mk d cs).get? p = some n → P n) ↔
      P (Ptree.mk d cs) ∧ ∀ kc ∈ cs, ∀ p n, kc.2.get? p = some n → P n := by
  constructor
  · intro h
    refine ⟨h [] _ rfl, ?_⟩
    intro kc hkc p n hn
    obtain ⟨i, hi, rfl⟩ := List.getElem_of_mem hkc
    apply h (i :: p) n
    simp [Ptree.get?, List.getElem?_eq_getElem hi, hn]
  · rintro ⟨h0, hc⟩ p n hn
    cases p with
    | nil => simp [Ptree.get?] at hn; subst hn; exact h0
    | cons i p =>
      simp only [Ptree.get?] at hn
      cases hi : cs[i]? with
      | none => simp [hi] at hn
      | some kc =>
        obtain ⟨k, c⟩ := kc
        simp [hi] at hn
        exact hc (k, c) (List.mem_iff_getElem?.2 ⟨i, hi⟩) p n hn

theorem keysOk_mk (d : Str) (cs : List (Str × Ptree)) :
    KeysOk (Ptree.mk d cs) ↔ (∀ kc ∈ cs, key_shape kc.1) ∧ ∀ kc ∈ cs, KeysOk kc.2 :=
  get?_all_mk (fun n => ∀ kc ∈ n.children, key_shape kc.1) d cs

theorem key_shape_quoted (s : Str) : key_shape (quoted s) := by
  right
  refine ⟨by simp [quoted], by simp [quoted], ?_⟩
  have : quoted s = (quote :: s) ++ [quote] := rfl
  rw [this, List.getLast?_append]
  simp

mutual
theorem keysOk_tree : ∀ v : Value, KeysOk (tree v)
  | Value.null => by rw [tree, keysOk_mk]; simp
  | Value.boolean b => by rw [tree, keysOk_mk]; simp
  | Value.number t b => by rw [tree, keysOk_mk]; simp
  | Value.string cs => by rw [tree, keysOk_mk]; simp
  | Value.array es => by rw [tree, keysOk_mk]; exact keysOk_elems es
  | Value.object ms => by rw [tree, keysOk_mk]; exact keysOk_members ms
theorem keysOk_elems : ∀ es : List Value,
    (∀ kc ∈ tree_elems es, key_shape kc.1) ∧ ∀ kc ∈ tree_elems es, KeysOk kc.2
  | [] => by simp [tree_elems]
  | v :: vs => by
    have h1 := keysOk_tree v
    have h2 := keysOk_elems vs
    simp only [tree_elems, List.mem_cons, forall_eq_or_imp]
    exact ⟨⟨Or.inl rfl, h2.1⟩, ⟨h1, h2.2⟩⟩
theorem keysOk_members : ∀ ms : List (List Chunk × Value),
    (∀ kc ∈ tree_members ms, key_shape kc.1) ∧ ∀ kc ∈ tree_members ms, KeysOk kc.2
  | [] => by simp [tree_members]
  | (k, v) :: ms => by
    have h1 := keysOk_tree v
    have h2 := keysOk_members ms
    simp only [tree_members, List.mem_cons, forall_eq_or_imp]
    exact ⟨⟨key_shape_quoted _, h2.1⟩, ⟨h1, h2.2⟩⟩
end

namespace details

theorem hex_value_upper_hex (d : Nat) (h : d < 16) : hex_value (upper_hex d) = d := by
  interval_cases d <;> rfl

theorem decode_piece_escape_unit (c : Nat) (interior : Bool) (x : Str) (hc : c ≤ 0xFFFF) :
    decode_piece (escape_unit c interior ++ x) = some (c, x) := by
  by_cases h : c < 256
  · interval_cases c <;> cases interior <;> rfl
  · rw [escape_unit_hex c interior (Or.inr (by omega))]
    have hu : min c 0xFFFF = c := Nat.min_eq_left hc
    have m : ∀ y : Nat, y % 16 < 16 := fun y => Nat.mod_lt y (by decide)
    have e : decode_piece (backslash :: Ch 'u' :: hex4 c ++ x) =
        some (4096 * hex_value (upper_hex (c / 4096 % 16))
          + 256 * hex_value (upper_hex (c / 256 % 16))
          + 16 * hex_value (upper_hex (c / 16 % 16)) + hex_value (upper_hex (c % 16)), x) := rfl
    rw [hu, e, hex_value_upper_hex _ (m _), hex_value_upper_hex _ (m _),
      hex_value_upper_hex _ (m _), hex_value_upper_hex _ (m _)]
    congr 2
    omega

theorem create_escapes_loop_injective :
    ∀ (s1 s2 : Str) (b1 b2 : Bool), (∀ c ∈ s1, c ≤ 0xFFFF) → (∀ c ∈ s2, c ≤ 0xFFFF) →
      create_escapes_loop b1 s1 = create_escapes_loop b2 s2 → s1 = s2
  | [], [], _, _, _, _, _ => rfl
  | [], c2 :: r2, b1, b2, _, _, h => by
    have hl := create_escapes_loop_length (c2 :: r2) b2
    rw [← h] at hl
    simp [create_escapes_loop] at hl
  | c1 :: r1, [], b1, b2, _, _, h => by
    have hl := create_escapes_loop_length (c1 :: r1) b1
    rw [h] at hl
    simp [create_escapes_loop] at hl
  | c1 :: r1, c2 :: r2, b1, b2, h1, h2, h => by
    rw [create_escapes_loop, create_escapes_loop] at h
    have hd := congrArg decode_piece h
    rw [decode_piece_escape_unit c1 _ _ (h1 c1 (List.mem_cons_self _ _)),
      decode_piece_escape_unit c2 _ _ (h2 c2 (List.mem_cons_self _ _))] at hd
    simp only [Option.some.injEq, Prod.mk.injEq] at hd
    have ih := create_escapes_loop_injective r1 r2 false false
      (fun c hc => h1 c (List.mem_cons_of_mem _ hc))
      (fun c hc => h2 c (List.mem_cons_of_mem _ hc)) hd.2
    rw [hd.1, ih]

end details

/-- C20: `create_escapes` is injective on strings whose code units are all at
most 0xFFFF (in particular on all 8-bit strings): equal outputs come from
equal strings, although a quote is emitted in two different forms depending
on its position. -/
theorem create_escapes_injective (s1 s2 : Str) (h1 : ∀ c ∈ s1, c ≤ 0xFFFF)
    (h2 : ∀ c ∈ s2, c ≤ 0xFFFF)
    (h : details.create_escapes s1 = details.create_escapes s2) : s1 = s2 :=
  details.create_escapes_loop_injective s1 s2 true true h1 h2 h

/-- Witness for C20: the run `"a"b"`, whose first and last quotes are written
literally and whose interior quote is escaped. -/
theorem create_escapes_injective_witness :
    (∀ c ∈ str "\"a\"b\"", c ≤ 0xFFFF) ∧
      details.create_escapes (str "\"a\"b\"") = str "\"a\\\"b\"" ∧
      str "\"a\"b\"" = str "\"a\"b\"" :=
  ⟨by decide, by decide,
    create_escapes_injective (str "\"a\"b\"") (str "\"a\"b\"") (by decide) (by decide) rfl⟩


/-! ## The situation of every event of a well-formed stream -/

theorem steps_append {Q : standard_callbacks → Event → Prop} (es1 es2 : List Event)
    (cb cb1 : standard_callbacks) (h1 : Steps Q es1 cb) (hr : run es1 cb = some cb1)
    (h2 : Steps Q es2 cb1) : Steps Q (es1 ++ es2) cb := by
  induction es1 generalizing cb with
  | nil =>
    simp only [run, Option.some.injEq] at hr
    subst hr
    simpa using h2
  | cons e es ih =>
    obtain ⟨hq, c, hc, hrest⟩ := h1
    simp only [run, hc] at hr
    exact ⟨hq, c, hc, ih c hrest hr⟩

theorem steps_mono {Q R : standard_callbacks → Event → Prop}
    (hQR : ∀ cb e, Q cb e → R cb e) (es : List Event) :
    ∀ cb, Steps Q es cb → Steps R es cb := by
  induction es with
  | nil => intro cb _; trivial
  | cons e es ih =>
    rintro cb ⟨hq, c, hc, hrest⟩
    exact ⟨hQR cb e hq, c, hc, ih c hrest⟩

/-- The state before any event of the sequence, and the relation it has to
that event. -/
theorem steps_at {Q : standard_callbacks → Event → Prop} (pre : List Event) (e : Event)
    (post : List Event) :
    ∀ cb, Steps Q (pre ++ e :: post) cb → ∃ cb', run pre cb = some cb' ∧ Q cb' e := by
  induction pre with
  | nil =>
    intro cb h
    exact ⟨cb, rfl, h.1⟩
  | cons x pre ih =>
    rintro cb ⟨_, c, hc, hrest⟩
    obtain ⟨cb', h1, h2⟩ := ih c hrest
    exact ⟨cb', by simp [run, hc, h1], h2⟩

/-- All prefixes of an accepted sequence are accepted. -/
theorem steps_take {Q : standard_callbacks → Event → Prop} (es : List Event) :
    ∀ (cb : standard_callbacks) (n : Nat), Steps Q es cb → ∃ cb', run (es.take n) cb = some cb' := by
  induction es with
  | nil => intro cb n _; exact ⟨cb, by simp [run]⟩
  | cons e es ih =>
    rintro cb n ⟨_, c, hc, hrest⟩
    cases n with
    | zero => exact ⟨cb, by simp [run]⟩
    | succ n =>
      obtain ⟨cb', h⟩ := ih c n hrest
      exact ⟨cb', by simp [run, hc, h]⟩

theorem steps_single {Q : standard_callbacks → Event → Prop} {cb cb1 : standard_callbacks}
    {e : Event} (hq : Q cb e) (hs : step cb e = some cb1) : Steps Q [e] cb :=
  ⟨hq, cb1, hs, trivial⟩

theorem run_single {cb cb1 : standard_callbacks} {e : Event} (hs : step cb e = some cb1) :
    run [e] cb = some cb1 := by
  simp [run, hs]

theorem valuePos_at {cb : standard_callbacks} {fk : kind} {p : Path} {base : List layer}
    {d : Str} {cs : List (Str × Ptree)} (hfk : fk = kind.array ∨ fk = kind.key)
    (hst : TopIs cb.stack ⟨fk, p⟩ base) (hp : cb.root.get? p = some (Ptree.mk d cs)) :
    ValuePos cb :=
  Or.inr ⟨fk, p, base, d, cs, hfk, hst, hp⟩

/-- Appending events delivered on a leaf frame. -/
theorem steps_leaf_appends (es : List Event) (hes : ∀ e ∈ es, e.appended.isSome = true) :
    ∀ (root : Ptree) (kb : Str) (q : Path) (rest : List layer) (s : Str)
      (kids : List (Str × Ptree)), root.get? q = some (Ptree.mk s kids) →
      Steps Situation es ⟨root, kb, ⟨kind.leaf, q⟩ :: rest⟩ ∧
        run es ⟨root, kb, ⟨kind.leaf, q⟩ :: rest⟩ =
          some ⟨Ptree.put (Ptree.mk (s ++ appended_text es) kids) root q, kb,
            ⟨kind.leaf, q⟩ :: rest⟩ := by
  induction es with
  | nil =>
    intro root kb q rest s kids h
    simp [Steps, run, appended_text, Ptree.put_self q root _ h]
  | cons e es ih =>
    intro root kb q rest s kids h
    obtain ⟨x, hx⟩ := Option.isSome_iff_exists.1 (hes e (List.mem_cons_self _ _))
    have h1 : step ⟨root, kb, ⟨kind.leaf, q⟩ :: rest⟩ e = _ := step_append_leaf hx h
    have h2 := ih (fun e' he' => hes e' (List.mem_cons_of_mem _ he'))
      (Ptree.put (Ptree.mk (s ++ x) kids) root q) kb q rest (s ++ x) kids
      (Ptree.get?_put _ q root _ h)
    rw [Ptree.put_put] at h2
    have hsit : Situation ⟨root, kb, ⟨kind.leaf, q⟩ :: rest⟩ e := by
      cases e <;> simp [Event.appended] at hx <;> simp [Situation]
    refine ⟨⟨hsit, _, h1, h2.1⟩, ?_⟩
    simp only [run, h1, h2.2, appended_text, hx, Option.getD_some, List.append_assoc]

/-- The chunks and the end of a key, delivered on a key frame. -/
theorem steps_key_appends (cs : List Chunk) :
    ∀ (root : Ptree) (kb : Str) (p : Path) (rest : List layer),
      Steps Situation (cs.map Chunk.event ++ [Event.on_end_string])
        ⟨root, kb, ⟨kind.key, p⟩ :: rest⟩ := by
  induction cs with
  | nil =>
    intro root kb p rest
    exact steps_single (by simp [Situation]) (step_append_key rfl)
  | cons c cs ih =>
    intro root kb p rest
    have hx : c.event.appended = some c.text := by cases c <;> rfl
    have h1 : step ⟨root, kb, ⟨kind.key, p⟩ :: rest⟩ c.event = _ := step_append_key hx
    have hsit : Situation ⟨root, kb, ⟨kind.key, p⟩ :: rest⟩ c.event := by
      cases c <;> simp [Situation, Chunk.event]
    exact ⟨hsit, _, h1, ih root (kb ++ c.text) p rest⟩


theorem steps_of_run_single {Q : standard_callbacks → Event → Prop}
    {cb cb1 : standard_callbacks} {e : Event} (hq : Q cb e) (hr : run [e] cb = some cb1) :
    Steps Q [e] cb := by
  simp only [run] at hr
  cases hs : step cb e with
  | none => simp [hs] at hr
  | some c => exact ⟨hq, c, hs, trivial⟩

/-- The events of a key, delivered below an object frame. -/
theorem steps_key {cb : standard_callbacks} {p : Path} {base : List layer}
    (hst : TopIs cb.stack ⟨kind.object, p⟩ base) (cs : List Chunk) :
    Steps Situation (string_events cs) cb := by
  have h1 : step cb Event.on_begin_string =
      some ⟨cb.root, [quote], ⟨kind.key, p⟩ :: base⟩ := by
    simp [step, standard_callbacks.on_begin_string, standard_callbacks.new_value,
      standard_callbacks.new_value_aux_at_object hst, standard_callbacks.current_value,
      standard_callbacks.update]
  exact ⟨Or.inr ⟨p, base, hst⟩, _, h1, steps_key_appends cs _ _ _ _⟩

mutual
/-- Every event of a value delivered at a value position finds the builder
in its situation. -/
theorem steps_value : ∀ (v : Value) (cb cb1 : standard_callbacks) (q : Path)
    (base : List layer), Resolved cb cb1 q base → ValuePos cb →
    Steps Situation (events v) cb
  | Value.null, cb, cb1, q, base, h, hv => by
    obtain ⟨cb', hr, _⟩ := runs_assign h Event.on_null (str "null") (fun _ => rfl)
    rw [events]
    exact steps_of_run_single hv hr.1
  | Value.boolean b, cb, cb1, q, base, h, hv => by
    obtain ⟨cb', hr, _⟩ := runs_assign h (Event.on_boolean b)
      (if b then str "true" else str "false") (fun _ => rfl)
    rw [events]
    exact steps_of_run_single hv hr.1
  | Value.number t true, cb, cb1, q, base, h, hv => by
    obtain ⟨cb', hr, _⟩ := runs_assign h (Event.on_number t) t (fun _ => rfl)
    simp only [events, number_events, if_true]
    exact steps_of_run_single hv hr.1
  | Value.number t false, cb, cb1, q, base, h, hv => by
    obtain ⟨root1, kb1, st1⟩ := cb1
    have hst : st1 = ⟨kind.leaf, q⟩ :: base := h.stack
    subst hst
    have h1 : step cb Event.on_begin_number = some ⟨root1, kb1, ⟨kind.leaf, q⟩ :: base⟩ := by
      simp [step, standard_callbacks.on_begin_number, h.value]
    have h2 := steps_leaf_appends (t.map Event.on_digit) (appended_digits t) root1 kb1 q base
      [] [] h.node
    have h3 : Steps Situation [Event.on_end_number]
        ⟨Ptree.put (Ptree.mk ([] ++ appended_text (t.map Event.on_digit)) []) root1 q, kb1,
          ⟨kind.leaf, q⟩ :: base⟩ :=
      steps_single ⟨q, base, rfl⟩ rfl
    simp only [events, number_events, Bool.false_eq_true, if_false]
    exact ⟨hv, _, h1, steps_append _ _ _ _ h2.1 h2.2 h3⟩
  | Value.string cs, cb, cb1, q, base, h, hv => by
    obtain ⟨root1, kb1, st1⟩ := cb1
    have hst : st1 = ⟨kind.leaf, q⟩ :: base := h.stack
    subst hst
    have hn : root1.get? q = some (Ptree.mk [] []) := h.node
    have h1 : step cb Event.on_begin_string =
        some ⟨Ptree.put (Ptree.mk [quote] []) root1 q, kb1, ⟨kind.leaf, q⟩ :: base⟩ := by
      simp [step, standard_callbacks.on_begin_string, h.value, standard_callbacks.current_value,
        standard_callbacks.update, Ptree.modify_eq_put _ q _ _ hn, Ptree.map_data]
    have h2 := steps_leaf_appends (cs.map Chunk.event ++ [Event.on_end_string])
      (appended_string_tail cs) (Ptree.put (Ptree.mk [quote] []) root1 q) kb1 q base [quote] []
      (Ptree.get?_put _ q _ _ hn)
    rw [events, string_events]
    exact ⟨Or.inl hv, _, h1, h2.1⟩
  | Value.array es, cb, cb1, q, base, h, hv => by
    obtain ⟨root1, kb1, st1⟩ := cb1
    have hst : st1 = ⟨kind.leaf, q⟩ :: base := h.stack
    subst hst
    have h1 : step cb Event.on_begin_array = some ⟨root1, kb1, ⟨kind.array, q⟩ :: base⟩ := by
      simp [step, standard_callbacks.on_begin_array, h.tree, standard_callbacks.set_back_kind]
    have h2 := steps_elems es ⟨root1, kb1, ⟨kind.array, q⟩ :: base⟩ q base []
      (Or.inl rfl) h.node h.good
    obtain ⟨cb2, hr2, _, hs2⟩ := runs_elems es ⟨root1, kb1, ⟨kind.array, q⟩ :: base⟩ q base []
      (Or.inl rfl) h.node h.good
    have h3 : step cb2 Event.on_end_array = some { cb2 with stack := base } :=
      on_end_at hs2 (by simp)
    rw [events]
    exact ⟨hv, _, h1, steps_append _ _ _ _ h2 hr2.1 (steps_single ⟨q, base, hs2⟩ h3)⟩
  | Value.object ms, cb, cb1, q, base, h, hv => by
    obtain ⟨root1, kb1, st1⟩ := cb1
    have hst : st1 = ⟨kind.leaf, q⟩ :: base := h.stack
    subst hst
    have h1 : step cb Event.on_begin_object = some ⟨root1, kb1, ⟨kind.object, q⟩ :: base⟩ := by
      simp [step, standard_callbacks.on_begin_object, h.tree, standard_callbacks.set_back_kind]
    have h2 := steps_members ms ⟨root1, kb1, ⟨kind.object, q⟩ :: base⟩ q base []
      (Or.inl rfl) h.node h.good
    obtain ⟨cb2, hr2, _, hs2⟩ := runs_members ms ⟨root1, kb1, ⟨kind.object, q⟩ :: base⟩ q base []
      (Or.inl rfl) h.node h.good
    have h3 : step cb2 Event.on_end_object = some { cb2 with stack := base } :=
      on_end_at hs2 (by simp)
    rw [events]
    exact ⟨hv, _, h1, steps_append _ _ _ _ h2 hr2.1 (steps_single ⟨q, base, hs2⟩ h3)⟩
theorem steps_elems : ∀ (es : List Value) (cb : standard_callbacks) (p : Path)
    (base : List layer) (cs : List (Str × Ptree)),
    TopIs cb.stack ⟨kind.array, p⟩ base → cb.root.get? p = some (Ptree.mk [] cs) →
    NoMixed cb.root → Steps Situation (events_elems es) cb
  | [], cb, p, base, cs, hst, hp, hG => by
    rw [events_elems]
    trivial
  | v :: vs, cb, p, base, cs, hst, hp, hG => by
    have hres := resolved_at (Or.inl rfl) hst hp hG
    have h1 := steps_value v _ _ _ _ hres (valuePos_at (Or.inl rfl) hst hp)
    obtain ⟨cb2, h2, hr2, hs2⟩ := runs_value v _ _ _ _ hres
    simp only [slot_key, slot_kind, if_neg (by decide : ¬ kind.array = kind.key)] at hr2 hs2
    rw [Ptree.put_new_child _ _ _ _ _ hp] at hr2
    have h3 := steps_elems vs cb2 p base (cs ++ [([], tree v)])
      (topIs_of_if hs2) (by rw [hr2]; exact Ptree.get?_put _ p _ _ hp) (runs_last h2)
    rw [events_elems]
    exact steps_append _ _ _ _ h1 h2.1 h3
theorem steps_members : ∀ (ms : List (List Chunk × Value)) (cb : standard_callbacks)
    (p : Path) (base : List layer) (cs : List (Str × Ptree)),
    TopIs cb.stack ⟨kind.object, p⟩ base → cb.root.get? p = some (Ptree.mk [] cs) →
    NoMixed cb.root → Steps Situation (events_members ms) cb
  | [], cb, p, base, cs, hst, hp, hG => by
    rw [events_members]
    trivial
  | (k, v) :: ms, cb, p, base, cs, hst, hp, hG => by
    have hk := steps_key hst k
    have hk1 := runs_key hst hG k
    have hres : Resolved ⟨cb.root, quoted (chunks_text k), ⟨kind.key, p⟩ :: base⟩ _ _ _ :=
      resolved_at (Or.inr rfl) (Or.inl rfl) hp hG
    have h1 := steps_value v _ _ _ _ hres
      (valuePos_at (Or.inr rfl)
        (Or.inl rfl : TopIs (⟨kind.key, p⟩ :: base) ⟨kind.key, p⟩ base) hp)
    obtain ⟨cb2, h2, hr2, hs2⟩ := runs_value v _ _ _ _ hres
    simp only [slot_key, slot_kind, if_pos] at hr2 hs2
    rw [Ptree.put_new_child _ _ _ _ _ hp] at hr2
    have h3 := steps_members ms cb2 p base (cs ++ [(quoted (chunks_text k), tree v)])
      (topIs_of_if hs2) (by rw [hr2]; exact Ptree.get?_put _ p _ _ hp) (runs_last h2)
    rw [events_members]
    exact steps_append _ _ _ _ hk hk1.1 (steps_append _ _ _ _ h1 h2.1 h3)
end

/-- Every event of a well-formed stream, delivered to a fresh builder, is
accepted and finds the builder in its situation. -/
theorem steps_events (v : Value) : Steps Situation (events v) standard_callbacks.fresh :=
  steps_value v _ _ _ _ resolved_fresh (Or.inl ⟨rfl, rfl⟩)


/-! ## The contract of the builder -/

theorem new_value_asserts_false : ∀ stack : List layer, new_value_asserts stack = false
  | [] => rfl
  | ⟨kind.leaf, _⟩ :: rest => by
    simp only [new_value_asserts]
    exact new_value_asserts_false rest
  | ⟨kind.object, _⟩ :: _ => rfl
  | ⟨kind.array, _⟩ :: _ => rfl
  | ⟨kind.key, _⟩ :: _ => rfl

theorem new_tree_asserts_of_valuePos {cb : standard_callbacks} (h : ValuePos cb) :
    new_tree_asserts cb.stack = false := by
  rcases h with ⟨h, _⟩ | ⟨fk, p, base, d, cs, hfk, hst, _⟩
  · rw [h]; rfl
  · rcases hst with h | ⟨q, h⟩ <;> rcases hfk with rfl | rfl <;> rw [h] <;> rfl

theorem popped_kind_of_topIs {stack : List layer} {fr : layer} {base : List layer}
    (h : TopIs stack fr base) (hk : fr.k ≠ kind.leaf) : popped_kind stack = some fr.k := by
  rcases h with h | ⟨q, h⟩
  · rw [h]; simp [popped_kind, hk]
  · rw [h]; simp [popped_kind]

theorem safe_of_situation (cb : standard_callbacks) (e : Event) (h : Situation cb e) :
    Safe cb e := by
  cases e with
  | on_null => exact new_value_asserts_false _
  | on_boolean b => exact new_value_asserts_false _
  | on_number u => exact new_value_asserts_false _
  | on_begin_number => exact new_value_asserts_false _
  | on_begin_string => exact new_value_asserts_false _
  | on_digit d =>
    obtain ⟨q, rest, h⟩ := h
    simp [Safe, h]
  | on_end_number => trivial
  | on_code_units u =>
    obtain ⟨l, rest, h, _⟩ := h
    simp [Safe, h]
  | on_code_unit c =>
    obtain ⟨l, rest, h, _⟩ := h
    simp [Safe, h]
  | on_end_string =>
    obtain ⟨l, rest, h, _⟩ := h
    simp [Safe, h]
  | on_begin_array => exact new_tree_asserts_of_valuePos h
  | on_begin_object => exact new_tree_asserts_of_valuePos h
  | on_end_array =>
    obtain ⟨p, base, h⟩ := h
    exact popped_kind_of_topIs h (by simp)
  | on_end_object =>
    obtain ⟨p, base, h⟩ := h
    exact popped_kind_of_topIs h (by simp)

/-- C14: for every well-formed event stream and every prefix of it, the
builder accepts the prefix (no `stack.back()` or `pop_back()` on an empty
frame stack, no dangling frame, no assertion), and every event finds the
builder within its contract: a container start (and a scalar start) does not
execute the `BOOST_ASSERT(false)` branch of `new_tree`, an event appending to
`current_value()` finds a non-empty stack, and every `on_end_array` /
`on_end_object`, after dropping an optional leaf frame, pops a frame whose
kind is array / object respectively. -/
theorem no_contract_violation (v : Value) :
    (∀ n : Nat, ∃ cb, run ((events v).take n) standard_callbacks.fresh = some cb) ∧
      (∀ (pre : List Event) (e : Event) (post : List Event), events v = pre ++ e :: post →
        ∃ cb, run pre standard_callbacks.fresh = some cb ∧ Safe cb e) := by
  have h := steps_events v
  refine ⟨fun n => steps_take _ _ n h, ?_⟩
  intro pre e post hsplit
  rw [hsplit] at h
  obtain ⟨cb, h1, h2⟩ := steps_at pre e post _ h
  exact ⟨cb, h1, safe_of_situation cb e h2⟩

/-- Witness for C14: in the stream of the document `[null]`, the event
`on_end_array` arrives after `on_begin_array`, `on_null`, and then pops an
array frame. -/
theorem no_contract_violation_witness :
    ∃ cb, run [Event.on_begin_array, Event.on_null] standard_callbacks.fresh = some cb ∧
      Safe cb Event.on_end_array :=
  (no_contract_violation (Value.array [Value.null])).2
    [Event.on_begin_array, Event.on_null] Event.on_end_array [] rfl

/-- From a state in which `new_value()` yields the empty node `q` under a new
leaf frame, the bulk number event and the digit-by-digit events end in the
same state. -/
theorem number_same_state {cb : standard_callbacks} {root1 : Ptree} {kb1 : Str} {q : Path}
    {base : List layer} (t : Str)
    (hv : cb.new_value = some (⟨root1, kb1, ⟨kind.leaf, q⟩ :: base⟩, Ref.data q))
    (hn : root1.get? q = some (Ptree.mk [] [])) :
    run [Event.on_number t] cb =
        some ⟨Ptree.put (Ptree.mk t []) root1 q, kb1, ⟨kind.leaf, q⟩ :: base⟩ ∧
      run (Event.on_begin_number :: (t.map Event.on_digit ++ [Event.on_end_number])) cb =
        some ⟨Ptree.put (Ptree.mk t []) root1 q, kb1, ⟨kind.leaf, q⟩ :: base⟩ := by
  constructor
  · simp [run, step, standard_callbacks.on_number, hv, standard_callbacks.update,
      Ptree.modify_eq_put _ q _ _ hn, Ptree.map_data]
  · have h1 : step cb Event.on_begin_number = some ⟨root1, kb1, ⟨kind.leaf, q⟩ :: base⟩ := by
      simp [step, standard_callbacks.on_begin_number, hv]
    have h2 := (steps_leaf_appends (t.map Event.on_digit) (appended_digits t) root1 kb1 q base
      [] [] hn).2
    rw [appended_text_digits, List.nil_append] at h2
    simp only [run, h1]
    rw [run_append, h2]
    rfl

/-- C11: at every value position and for every digit text `t`, the bulk event
`on_number(t)` and the sequence `on_begin_number`, one `on_digit` per unit of
`t`, `on_end_number` are accepted and leave the builder in the same state
(same tree, same frame stack, same pending-key buffer), in which the top
frame is the leaf frame of a node whose scalar payload is exactly `t`; in a
well-formed event stream every number starts at a value position; and the
digits 1, 2, 3 store the text `123`. -/
theorem number_bulk_eq_digits (cb : standard_callbacks) (t : Str) (h : ValuePos cb) :
    (∃ cb', run [Event.on_number t] cb = some cb' ∧
      run (Event.on_begin_number :: (t.map Event.on_digit ++ [Event.on_end_number])) cb
        = some cb' ∧
      ∃ q rest n, cb'.stack = ⟨kind.leaf, q⟩ :: rest ∧ cb'.root.get? q = some n ∧
        n.data = t) ∧
    (∀ (v : Value) (pre : List Event) (e : Event) (post : List Event),
      events v = pre ++ e :: post → (e = Event.on_begin_number ∨ ∃ u, e = Event.on_number u) →
      ∃ c, run pre standard_callbacks.fresh = some c ∧ ValuePos c) ∧
    run [Event.on_begin_number, Event.on_digit (Ch '1'), Event.on_digit (Ch '2'),
        Event.on_digit (Ch '3'), Event.on_end_number] standard_callbacks.fresh
      = some ⟨Ptree.mk (str "123") [], [], [⟨kind.leaf, []⟩]⟩ := by
  refine ⟨?_, ?_, by rfl⟩
  · obtain ⟨root, kb, stack⟩ := cb
    rcases h with ⟨h1, h2⟩ | ⟨fk, p, base, d, cs, hfk, hst, hp⟩
    · simp only at h1 h2
      subst h1
      subst h2
      have hs := number_same_state t
        (rfl : standard_callbacks.new_value ⟨Ptree.empty, kb, []⟩ =
          some (⟨Ptree.empty, kb, [⟨kind.leaf, []⟩]⟩, Ref.data [])) rfl
      exact ⟨_, hs.1, hs.2, [], [], Ptree.mk t [], rfl, by simp, rfl⟩
    · have hv : standard_callbacks.new_value ⟨root, kb, stack⟩ = _ :=
        standard_callbacks.new_value_aux_at hfk hst hp
      have hs := number_same_state t hv (Ptree.get?_new_child _ _ _ _ hp)
      refine ⟨_, hs.1, hs.2, _, _, Ptree.mk t [], rfl, ?_, rfl⟩
      exact Ptree.get?_put _ _ _ _ (Ptree.get?_new_child _ _ _ _ hp)
  · intro v pre e post hsplit he
    have hsteps := steps_events v
    rw [hsplit] at hsteps
    obtain ⟨c, h1, h2⟩ := steps_at pre e post _ hsteps
    refine ⟨c, h1, ?_⟩
    rcases he with rfl | ⟨u, rfl⟩
    · exact h2
    · exact h2

/-- Witness for C11: after `on_begin_array` the builder is at a value position
below the array frame of the root; the number `42` delivered either way
leaves the same state, with the new child holding `42`. -/
theorem number_bulk_eq_digits_witness :
    ValuePos ⟨Ptree.mk [] [], [], [⟨kind.array, []⟩]⟩ ∧
      ∃ cb', run [Event.on_number (str "42")] ⟨Ptree.mk [] [], [], [⟨kind.array, []⟩]⟩
          = some cb' ∧
        run (Event.on_begin_number :: ((str "42").map Event.on_digit ++ [Event.on_end_number]))
          ⟨Ptree.mk [] [], [], [⟨kind.array, []⟩]⟩ = some cb' ∧
        ∃ q rest n, cb'.stack = ⟨kind.leaf, q⟩ :: rest ∧ cb'.root.get? q = some n ∧
          n.data = str "42" :=
  ⟨Or.inr ⟨kind.array, [], [], [], [], Or.inl rfl, Or.inl rfl, rfl⟩,
    (number_bulk_eq_digits ⟨Ptree.mk [] [], [], [⟨kind.array, []⟩]⟩ (str "42")
      (Or.inr ⟨kind.array, [], [], [], [], Or.inl rfl, Or.inl rfl, rfl⟩)).1⟩


/-! ## Empty arrays below the top level -/

theorem tree_elems_get : ∀ (es : List Value) (i : Nat) (w : Value), es[i]? = some w →
    (tree_elems es)[i]? = some ([], tree w)
  | [], _, _, h => by simp at h
  | v :: vs, 0, w, h => by
    simp only [List.getElem?_cons_zero, Option.some.injEq] at h
    simp [tree_elems, h]
  | v :: vs, i + 1, w, h => by
    simp only [List.getElem?_cons_succ] at h
    simpa [tree_elems] using tree_elems_get vs i w h

theorem tree_members_get : ∀ (ms : List (List Chunk × Value)) (i : Nat) (k : List Chunk)
    (w : Value), ms[i]? = some (k, w) →
    (tree_members ms)[i]? = some (quoted (chunks_text k), tree w)
  | [], _, _, _, h => by simp at h
  | (k0, v) :: ms, 0, k, w, h => by
    simp only [List.getElem?_cons_zero, Option.some.injEq, Prod.mk.injEq] at h
    simp [tree_members, h.1, h.2]
  | (k0, v) :: ms, i + 1, k, w, h => by
    simp only [List.getElem?_cons_succ] at h
    simpa [tree_members] using tree_members_get ms i k w h

/-- The child of the reference tree at the index of a sub-value is the
reference tree of that sub-value. -/
theorem tree_child (v w : Value) (i : Nat) (h : v.child? i = some w) :
    ∃ d cs k, tree v = Ptree.mk d cs ∧ cs[i]? = some (k, tree w) := by
  cases v with
  | array es =>
    exact ⟨[], tree_elems es, [], by rw [tree], tree_elems_get es i w h⟩
  | object ms =>
    simp only [Value.child?] at h
    cases hm : ms[i]? with
    | none => simp [hm] at h
    | some kv =>
      obtain ⟨k, u⟩ := kv
      simp only [hm, Option.some.injEq] at h
      subst h
      exact ⟨[], tree_members ms, _, by rw [tree], tree_members_get ms i k u hm⟩
  | null => simp [Value.child?] at h
  | boolean b => simp [Value.child?] at h
  | number t b => simp [Value.child?] at h
  | string cs => simp [Value.child?] at h

/-- The node of the reference tree at the position of a sub-value is the
reference tree of that sub-value. -/
theorem tree_sub : ∀ (p : Path) (v w : Value), v.sub? p = some w →
    (tree v).get? p = some (tree w)
  | [], v, w, h => by
    simp only [Value.sub?, Option.some.injEq] at h
    simp [h]
  | i :: p, v, w, h => by
    simp only [Value.sub?] at h
    cases hc : v.child? i with
    | none => simp [hc] at h
    | some u =>
      simp only [hc] at h
      obtain ⟨d, cs, k, ht, hi⟩ := tree_child v u i hc
      rw [ht]
      simp only [Ptree.get?, hi]
      exact tree_sub p u w h

/-- An empty array delivered below an array frame or a key frame appends an
empty node and leaves the frame on top of the stack. -/
theorem run_empty_array_at {cb : standard_callbacks} {fk : kind} {q : Path}
    {base : List layer} {d : Str} {cs : List (Str × Ptree)}
    (hfk : fk = kind.array ∨ fk = kind.key) (hst : TopIs cb.stack ⟨fk, q⟩ base)
    (hq : cb.root.get? q = some (Ptree.mk d cs)) :
    run [Event.on_begin_array, Event.on_end_array] cb =
      some ⟨Ptree.put (Ptree.mk d (cs ++ [(slot_key fk cb.key_buffer, Ptree.mk [] [])]))
          cb.root q,
        cb.key_buffer, ⟨slot_kind fk, q⟩ :: base⟩ := by
  have ht : cb.new_tree = _ := standard_callbacks.new_tree_aux_at hfk hst hq
  simp [run, step, standard_callbacks.on_begin_array, ht, standard_callbacks.set_back_kind,
    standard_callbacks.on_end_array, standard_callbacks.on_end, standard_callbacks.pop_back,
    Ptree.empty]

/-- C12 (amended): for every position below the top level, at any depth, at
which an empty array occurs in a well-formed document, the node built for it
(the node at that position of the built tree) has zero children and an empty
scalar payload, and the writer's output for that node, printed at the nesting
level of the position, is the empty text rather than `[]`.  In terms of the
builder: an empty array delivered while an array frame or a key frame governs
the stack (possibly under the leaf frame of the value before) appends one
child that is an empty node, under the empty key or the pending key. -/
theorem empty_array_node_and_output (v : Value) (p : Path) (pretty : Bool)
    (hp : p ≠ []) (h : v.sub? p = some (Value.array [])) :
    (∃ t node, build (events v) = some t ∧ t.get? p = some node ∧
      node.children = [] ∧ node.data = [] ∧
      details.write_json_helper node p.length pretty = []) ∧
    (∀ (cb : standard_callbacks) (fk : kind) (q : Path) (base : List layer) (d : Str)
      (cs : List (Str × Ptree)), (fk = kind.array ∨ fk = kind.key) →
      TopIs cb.stack ⟨fk, q⟩ base → cb.root.get? q = some (Ptree.mk d cs) →
      ∃ cb', run [Event.on_begin_array, Event.on_end_array] cb = some cb' ∧
        cb'.stack = ⟨slot_kind fk, q⟩ :: base ∧
        cb'.root.get? q =
          some (Ptree.mk d (cs ++ [(slot_key fk cb.key_buffer, Ptree.mk [] [])])) ∧
        cb'.root.get? (q ++ [cs.length]) = some (Ptree.mk [] [])) := by
  constructor
  · refine ⟨tree v, Ptree.mk [] [], build_events v, ?_, rfl, rfl, ?_⟩
    · have := tree_sub p v _ h
      simpa [tree, tree_elems] using this
    · cases p with
      | nil => exact absurd rfl hp
      | cons i r =>
        rw [List.length_cons, details.write_json_helper_leaf]
        rfl
  · intro cb fk q base d cs hfk hst hq
    exact ⟨_, run_empty_array_at hfk hst hq, rfl, Ptree.get?_put _ q _ _ hq,
      Ptree.get?_new_child _ _ _ _ hq⟩

/-- Witness for C12 (amended): in the documents `[[[]]]` and
`{"a":{"b":[]}}` the empty array at position 0, 0 (nesting level 2) is built
as an empty node and printed as the empty text. -/
theorem empty_array_node_and_output_witness :
    ((Value.array [Value.array [Value.array []]]).sub? [0, 0] = some (Value.array []) ∧
      ∃ t node, build (events (Value.array [Value.array [Value.array []]])) = some t ∧
        t.get? [0, 0] = some node ∧ node.children = [] ∧ node.data = [] ∧
        details.write_json_helper node 2 true = []) ∧
    ∃ t node,
      build (events (Value.object [([Chunk.unit (Ch 'a')],
        Value.object [([Chunk.unit (Ch 'b')], Value.array [])])])) = some t ∧
      t.get? [0, 0] = some node ∧ node.children = [] ∧ node.data = [] ∧
      details.write_json_helper node 2 true = [] :=
  ⟨⟨rfl, (empty_array_node_and_output (Value.array [Value.array [Value.array []]]) [0, 0] true
      (by simp) rfl).1⟩,
    (empty_array_node_and_output
      (Value.object [([Chunk.unit (Ch 'a')],
        Value.object [([Chunk.unit (Ch 'b')], Value.array [])])]) [0, 0] true
      (by simp) rfl).1⟩

end Testjson
